import Mathlib

/-!
Shallow embedding of the signflash wordlist generator, covering
gen_wordlist.py and gen_phrases.py, together with theorems settling the
specification claims about candidate selection, frequency ranking, phrase
cleaning and bracketing, category enumeration, chunk splitting and output
assembly.

Strings are modelled as List Char. Python's Unicode-aware character classes
and case folding are modelled over ASCII plus the Swedish letters appearing
in this repository's data.
-/

namespace Signflash

/-- Characters matched by Python's regex class backslash-s
(space, tab, newline, carriage return, vertical tab, form feed). -/
def isSpaceChar (c : Char) : Bool :=
  c = ' ' || c = '\t' || c = '\n' || c = '\r' || c.toNat = 11 || c.toNat = 12

/-- Characters matched by the regex class backslash-d. -/
def isDigitChar (c : Char) : Bool := c.isDigit

/-- Characters matched by the regex class backslash-w: ASCII alphanumerics,
underscore, and the Swedish letters used in this repository's catalog. -/
def isWordChar (c : Char) : Bool :=
  c.isAlphanum || c = '_' ||
    c = 'å' || c = 'ä' || c = 'ö' || c = 'Å' || c = 'Ä' || c = 'Ö' || c = 'é' || c = 'É'

/-- Lowercasing of a single character, modelling Python's str.lower and the
case folding performed by re.IGNORECASE, over the modelled alphabet. -/
def lcChar (c : Char) : Char :=
  match c with
  | 'A' => 'a' | 'B' => 'b' | 'C' => 'c' | 'D' => 'd' | 'E' => 'e' | 'F' => 'f'
  | 'G' => 'g' | 'H' => 'h' | 'I' => 'i' | 'J' => 'j' | 'K' => 'k' | 'L' => 'l'
  | 'M' => 'm' | 'N' => 'n' | 'O' => 'o' | 'P' => 'p' | 'Q' => 'q' | 'R' => 'r'
  | 'S' => 's' | 'T' => 't' | 'U' => 'u' | 'V' => 'v' | 'W' => 'w' | 'X' => 'x'
  | 'Y' => 'y' | 'Z' => 'z'
  | 'Å' => 'å' | 'Ä' => 'ä' | 'Ö' => 'ö' | 'É' => 'é'
  | d => d

/-- Lowercasing of a string, modelling str.lower. -/
def lcList (s : List Char) : List Char := s.map lcChar

/-- Python str.strip with no argument: remove leading and trailing whitespace. -/
def pyStrip (s : List Char) : List Char :=
  ((s.dropWhile isSpaceChar).reverse.dropWhile isSpaceChar).reverse

/-- Convert a Lean string literal to the List Char representation. -/
def ofStr (s : String) : List Char := s.toList

/-- Consume one expected character from the front of the input. -/
def expectChar (c : Char) (s : List Char) : Option (List Char) :=
  match s with
  | [] => none
  | d :: r => if d = c then some r else none

/-- Matcher for the leading enumeration marker regexes of both scripts:
gen_wordlist.py line 366 uses an anchored pattern of lowercase a, l, t,
one-or-more whitespace, one-or-more digits, a literal dot, then any
whitespace; gen_phrases.py line 61 is identical except the whitespace
between the letters and the digits may be empty. Neither call passes
re.IGNORECASE, so matching is case-sensitive. Greedy matching of the
whitespace and digit runs is deterministic because the character classes
involved are disjoint. Returns the remainder after the marker when the
anchored pattern matches, and none otherwise. -/
def stripAltCore (needWs : Bool) (s : List Char) : Option (List Char) :=
  (expectChar 'a' s).bind fun r1 =>
  (expectChar 'l' r1).bind fun r2 =>
  (expectChar 't' r2).bind fun r3 =>
  (if needWs && (r3.takeWhile isSpaceChar).isEmpty then none
   else
     let r4 := r3.dropWhile isSpaceChar
     if (r4.takeWhile isDigitChar).isEmpty then none
     else (expectChar '.' (r4.dropWhile isDigitChar)).map fun r6 =>
       r6.dropWhile isSpaceChar)

/-- Marker stripping as performed by gen_wordlist.py line 366
(whitespace between alt and the number is required). -/
def stripAltW (s : List Char) : List Char := (stripAltCore true s).getD s

/-- Marker stripping as performed by gen_phrases.py line 61
(whitespace between alt and the number is optional). -/
def stripAltP (s : List Char) : List Char := (stripAltCore false s).getD s

/-- Replacement of every maximal whitespace run by a single space,
modelling re.sub of one-or-more whitespace with a space: within a run all
characters but the last are dropped and the last becomes a single space. -/
def collapseWs : List Char → List Char
  | [] => []
  | [c] => if isSpaceChar c then [' '] else [c]
  | c :: d :: r =>
    if isSpaceChar c then
      if isSpaceChar d then collapseWs (d :: r) else ' ' :: collapseWs (d :: r)
    else c :: collapseWs (d :: r)

/-- Phrase cleaning in gen_wordlist.py lines 366 to 368: strip the marker,
collapse whitespace, strip the ends. -/
def cleanW (s : List Char) : List Char := pyStrip (collapseWs (stripAltW s))

/-- Phrase cleaning in gen_phrases.py lines 61 to 62. -/
def cleanP (s : List Char) : List Char := pyStrip (collapseWs (stripAltP s))

/-- Combined negative lookbehinds of the auto_bracket pattern: the position
must not be preceded by an opening square bracket nor by a word character.
At the start of the input (prev is none) both lookbehinds succeed. -/
def lookbehindOk : Option Char → Bool
  | none => true
  | some d => !(d = '[' || isWordChar d)

/-- Case-insensitive literal match of w against the front of s (the
re.escape of the word under re.IGNORECASE). Returns the consumed original
characters and the remainder. -/
def stripCI : List Char → List Char → Option (List Char × List Char)
  | [], s => some ([], s)
  | _ :: _, [] => none
  | a :: ws, c :: cs =>
    if lcChar c = lcChar a then (stripCI ws cs).map (fun p => (c :: p.1, p.2)) else none

/-- Split a list into its initial segment and last element. -/
def splitLast : List Char → Option (List Char × Char)
  | [] => none
  | a :: r =>
    match splitLast r with
    | none => some ([], a)
    | some (ini, x) => some (a :: ini, x)

/-- Attempt of the auto_bracket regex of gen_wordlist.py lines 131 to 136 at
one position: both lookbehinds, the case-insensitive word, the greedy
word-character extension, then the negative lookahead forbidding a closing
square bracket. When the lookahead fails after the greedy extension the
engine backtracks the extension by one character (the character it gives
back is a word character, hence distinct from the bracket, so one step
always suffices); with an empty extension the literal cannot backtrack and
the position does not match. Returns the matched text and the remainder. -/
def tryMatch (w : List Char) (prev : Option Char) (s : List Char) :
    Option (List Char × List Char) :=
  if lookbehindOk prev then
    match stripCI w s with
    | none => none
    | some (m, r) =>
      let ext := r.takeWhile isWordChar
      let rest := r.dropWhile isWordChar
      match rest with
      | ']' :: _ =>
        match splitLast ext with
        | none => none
        | some (ini, e) => some (m ++ ini, e :: rest)
      | _ => some (m ++ ext, rest)
  else none

/-- Left-to-right non-overlapping substitution scan of re.sub for the
auto_bracket pattern, replacing each match m by bracket, m, bracket. The
lookbehinds inspect the original input, so prev is the input character just
before the current position. An empty match (possible only for an empty
word) emits empty brackets and advances one character, as re.sub does. The
fuel argument only serves structural termination; any fuel exceeding the
input length gives the scan's value. -/
def subScanF (w : List Char) : Nat → Option Char → List Char → List Char
  | 0, _, s => s
  | _ + 1, prev, [] =>
    match tryMatch w prev [] with
    | some (m, _) => '[' :: m ++ [']']
    | none => []
  | fuel + 1, prev, c :: cs =>
    match tryMatch w prev (c :: cs) with
    | none => c :: subScanF w fuel (some c) cs
    | some (m, rest) =>
      match m with
      | [] => '[' :: ']' :: c :: subScanF w fuel (some c) cs
      | e :: m2 => '[' :: (e :: m2) ++ ']' :: subScanF w fuel (some ((e :: m2).getLastD e)) rest

/-- Pattern bracketing of gen_wordlist.py (auto_bracket). -/
def auto_bracket (w p : List Char) : List Char := subScanF w (p.length + 1) none p

/-- Fuel-free view of the substitution scan: the scan with just enough
fuel. All reasoning about auto_bracket is phrased through this wrapper. -/
def subScan (w : List Char) (prev : Option Char) (s : List Char) : List Char :=
  subScanF w (s.length + 1) prev s

/-- Continuation of a scan after a maximal word-character run has been
copied: the first following character (necessarily a non-word character)
is copied and the scan proceeds behind it. -/
def restScan (w : List Char) (s : List Char) : List Char :=
  match s.dropWhile isWordChar with
  | [] => []
  | h :: t => h :: subScan w (some h) t

/-- Transcription of the claim's word-boundary condition: the match
position is at the start of the input or preceded by a character that is
neither an opening square bracket nor a word character. -/
def BoundaryOk (prev : Option Char) : Prop :=
  ∀ d, prev = some d → d ≠ '[' ∧ isWordChar d = false

/-- Transcription of a case-insensitive occurrence of the word. -/
def CIMatch (w a : List Char) : Prop := lcList a = lcList w

/-- Transcription of the claim's match shape at a position: the input
decomposes into a case-insensitive occurrence of the word, the greedy
extension by trailing word characters, and a remainder that starts with a
non-word character (or is empty). -/
def GreedySplit (s a ext rest : List Char) (w : List Char) : Prop :=
  s = a ++ ext ++ rest ∧ CIMatch w a ∧ (∀ c ∈ ext, isWordChar c = true) ∧
    (∀ d, rest.head? = some d → isWordChar d = false)

/-- Transcription of the conditions under which the position does not
match: the word boundary fails, no case-insensitive occurrence of the word
starts here, or the occurrence has no trailing word characters to give up
and is immediately followed by a closing square bracket. -/
def NoMatchAt (w : List Char) (prev : Option Char) (s : List Char) : Prop :=
  ¬ BoundaryOk prev ∨
  (∀ a r, s = a ++ r → ¬ CIMatch w a) ∨
  (∃ a rest, GreedySplit s a [] rest w ∧ rest.head? = some ']')

/-- Declarative transcription of pattern bracketing, written from the
(amended) claim's wording: the scan copies characters at non-matching
positions; at a boundary position starting a case-insensitive occurrence
of the word it wraps the occurrence plus its greedy word-character
extension in square brackets, unless the position after the extension
holds a closing square bracket, in which case the match gives up its last
extension character (wrapShort) — and is skipped entirely only when there
is no extension character to give up (part of NoMatchAt). -/
inductive Brack (w : List Char) : Option Char → List Char → List Char → Prop where
  | nil (prev : Option Char) : Brack w prev [] []
  | copy (prev : Option Char) (c : Char) (cs out : List Char) :
      NoMatchAt w prev (c :: cs) →
      Brack w (some c) cs out →
      Brack w prev (c :: cs) (c :: out)
  | wrap (prev : Option Char) (c : Char) (cs a ext rest out : List Char) :
      BoundaryOk prev →
      GreedySplit (c :: cs) a ext rest w →
      rest.head? ≠ some ']' →
      Brack w (some ((a ++ ext).getLastD c)) rest out →
      Brack w prev (c :: cs) ('[' :: (a ++ ext) ++ ']' :: out)
  | wrapShort (prev : Option Char) (c : Char) (cs a ext rest out : List Char) (e : Char) :
      BoundaryOk prev →
      GreedySplit (c :: cs) a (ext ++ [e]) rest w →
      rest.head? = some ']' →
      Brack w (some ((a ++ ext).getLastD c)) (e :: rest) out →
      Brack w prev (c :: cs) ('[' :: (a ++ ext) ++ ']' :: out)

/-- Single negative lookbehind of the gen_phrases.py bracketing pattern
(lines 71 to 76): only an opening square bracket blocks a match; there is
no word-boundary lookbehind and no lookahead. -/
def lookbehindOkP : Option Char → Bool
  | none => true
  | some d => !(d = '[')

/-- Match attempt of the gen_phrases.py bracketing pattern at one position. -/
def tryMatchP (w : List Char) (prev : Option Char) (s : List Char) :
    Option (List Char × List Char) :=
  if lookbehindOkP prev then
    match stripCI w s with
    | none => none
    | some (m, r) => some (m ++ r.takeWhile isWordChar, r.dropWhile isWordChar)
  else none

/-- Substitution scan for the gen_phrases.py pattern. -/
def subScanPF (w : List Char) : Nat → Option Char → List Char → List Char
  | 0, _, s => s
  | _ + 1, prev, [] =>
    match tryMatchP w prev [] with
    | some (m, _) => '[' :: m ++ [']']
    | none => []
  | fuel + 1, prev, c :: cs =>
    match tryMatchP w prev (c :: cs) with
    | none => c :: subScanPF w fuel (some c) cs
    | some (m, rest) =>
      match m with
      | [] => '[' :: ']' :: c :: subScanPF w fuel (some c) cs
      | e :: m2 => '[' :: (e :: m2) ++ ']' :: subScanPF w fuel (some ((e :: m2).getLastD e)) rest

/-- Pattern bracketing of gen_phrases.py lines 70 to 76. -/
def bracket_phrases (w p : List Char) : List Char := subScanPF w (p.length + 1) none p

/-- Python values as produced by ast.literal_eval on the phrases column:
the shapes the scripts inspect are strings, lists and dicts; all other
literal values are collapsed into the remaining constructors. -/
inductive PyVal where
  | str (s : List Char)
  | num (n : Int)
  | list (l : List PyVal)
  | dict (d : List (List Char × PyVal))
  | other

/-- Content of the phrases column of one catalog row, modelled by the
outcome of the processing in parse_phrases_column: blank covers an empty or
whitespace-only column, malformed covers a ValueError or SyntaxError raised
by ast.literal_eval (the Python literal parser itself is standard-library
code outside this repository and is modelled abstractly by this outcome),
and lit carries the parsed value. -/
inductive PhrasesCol where
  | blank
  | malformed
  | lit (v : PyVal)

/-- Permissive parse of the phrases column, gen_wordlist.py lines 112 to
126: blank input and parse failures give an empty list, a parsed non-list
value gives an empty list, and a parsed list is returned as is, with no
validation of its elements. -/
def parse_phrases_column : PhrasesCol → List PyVal
  | PhrasesCol.blank => []
  | PhrasesCol.malformed => []
  | PhrasesCol.lit (PyVal.list l) => l
  | PhrasesCol.lit _ => []

/-- One catalog row as read by csv.DictReader from sign_data.csv. -/
structure Row where
  word : List Char
  movie : List Char
  category : List Char
  category_slug : List Char
  description : List Char
  phrases : PhrasesCol

/-- Association-list lookup with textual keys, modelling Python dict access
where the embedding keeps dicts as insertion-ordered association lists. -/
def alookup (k : List Char) : List (List Char × β) → Option β
  | [] => none
  | (k2, v) :: r => if k2 = k then some v else alookup k r

/-- Test whether pat occurs as a contiguous subsequence of s, modelling the
Python substring containment operator. -/
def containsSeq (pat : List Char) : List Char → Bool
  | [] => pat.isPrefixOf []
  | c :: t => pat.isPrefixOf (c :: t) || containsSeq pat t

/-- Reserved fingerspelling slug. -/
def BOK_SLUG : List Char := ofStr "bokstavering"

/-- Fingerspelling test of gen_wordlist.py lines 86 to 89. -/
def is_bokstavering_row (r : Row) : Bool :=
  (ofStr "Bokstaveras:").isPrefixOf r.description && !containsSeq (ofStr "//") r.description

/-- Python line.split on tab. The empty string splits into one empty field. -/
def splitTab : List Char → List (List Char)
  | [] => [[]]
  | c :: r =>
    if c = '\t' then [] :: splitTab r
    else
      match splitTab r with
      | [] => [[c]]
      | f :: rest => (c :: f) :: rest

/-- Processing of one corpus line by load_frequency, gen_wordlist.py lines
73 to 79: a line with at least five tab-separated fields contributes its
first field, stripped and lowercased, at the next rank, unless that word is
empty or already present. -/
def addFreqLine (acc : List (List Char × Nat)) (line : List Char) :
    List (List Char × Nat) :=
  let parts := splitTab line
  if 5 ≤ parts.length then
    let word := lcList (pyStrip (parts.headD []))
    if word ≠ [] ∧ alookup word acc = none then acc ++ [(word, acc.length)] else acc
  else acc

/-- Frequency table construction of load_frequency, gen_wordlist.py lines
68 to 80, as a word-to-rank association list. -/
def load_frequency (lines : List (List Char)) : List (List Char × Nat) :=
  lines.foldl addFreqLine []

/-- Sort key used at gen_wordlist.py line 322: the recorded rank, or the
table size for words absent from the table. -/
def rankOf (freq : List (List Char × Nat)) (w : List Char) : Nat :=
  (alookup w freq).getD freq.length

/-- Candidate ordering of gen_wordlist.py lines 321 to 322. Python's
list.sort is documented stable and sorts ascending by key; the embedding
uses insertion sort, which is extensionally that stable sort. -/
def sortByRank (freq : List (List Char × Nat)) (c : List (List Char)) :
    List (List Char) :=
  List.insertionSort (fun a b => rankOf freq a ≤ rankOf freq b) c

/-- Lookup construction of gen_wordlist.py lines 266 to 278: iterate rows
in file order, skip rows without a usable video, apply the category filter
when one is active, and keep the first row per word. -/
def buildWordLookup (rows : List Row) (slugs : List (List Char)) :
    List (List Char × Row) :=
  let hasBok := BOK_SLUG ∈ slugs
  let otherSlugs := slugs.filter (fun s => s ≠ BOK_SLUG)
  rows.foldl
    (fun acc row =>
      let word := lcList (pyStrip row.word)
      let slug := lcList (pyStrip row.category_slug)
      let movie := pyStrip row.movie
      if movie = [] then acc
      else if slugs ≠ [] ∧
          ¬((hasBok ∧ is_bokstavering_row row = true) ∨
            (otherSlugs ≠ [] ∧ slug ∈ otherSlugs)) then acc
      else if (alookup word acc).isNone then acc ++ [(word, row)] else acc)
    []

/-- Word-file preprocessing of gen_wordlist.py lines 296 to 297: keep
non-blank lines, stripped and lowercased, in file order. -/
def wordfileWords (lines : List (List Char)) : List (List Char) :=
  lines.filterMap fun l => if pyStrip l = [] then none else some (lcList (pyStrip l))

/-- Candidate selection of gen_wordlist.py lines 294 to 309: an explicit
word list restricted to words present in the lookup (words not found are
reported, non-fatally), otherwise all lookup keys. -/
def selectCandidates (wordfile : Option (List (List Char)))
    (lookup : List (List Char × Row)) : List (List Char) :=
  match wordfile with
  | some lines => (wordfileWords lines).filter fun w => (alookup w lookup).isSome
  | none => lookup.map (fun p => p.1)

/-- Filename extraction of extract_video_filename, gen_wordlist.py
lines 92 to 94. -/
def extract_video_filename (s : List Char) : List Char :=
  if '/' ∈ s then (s.reverse.takeWhile (fun c => c ≠ '/')).reverse else s

/-- One entry of the words array of the output artifact. -/
structure WordEntry where
  word : List Char
  video : List Char
deriving DecidableEq

/-- Entry building with video verification, gen_wordlist.py lines 334 to
350. The remote existence probe of check_video_url is network input and is
modelled by the boolean oracle verify; with noVerify the probe is skipped
and every candidate is kept. -/
def buildEntries (verify : List Char → Bool) (noVerify : Bool)
    (lookup : List (List Char × Row)) (cands : List (List Char)) : List WordEntry :=
  cands.filterMap fun w =>
    match alookup w lookup with
    | none => none
    | some row =>
      let filename := extract_video_filename row.movie
      if noVerify then some ⟨w, filename⟩
      else if verify filename then some ⟨w, filename⟩ else none

/-- Words-array pipeline of a generation run: lookup construction,
candidate selection, stable rank sort, trim to the maximum count, and
entry building (gen_wordlist.py lines 266 to 350). -/
def pipelineWords (rows : List Row) (slugs : List (List Char))
    (wordfile : Option (List (List Char))) (freq : List (List Char × Nat))
    (maxlength : Nat) (verify : List Char → Bool) (noVerify : Bool) : List WordEntry :=
  let lookup := buildWordLookup rows slugs
  let cands := selectCandidates wordfile lookup
  let sorted := sortByRank freq cands
  buildEntries verify noVerify lookup (sorted.take maxlength)

/-- One entry of the phrases array of the output artifact. -/
structure PhraseEntry where
  word : List Char
  phrase : List Char
  video : List Char
deriving DecidableEq

/-- Output artifact written by write_wordlist_js: its file content is
determined by the id, name, words array and phrases array. -/
structure Artifact where
  id : List Char
  name : List Char
  words : List WordEntry
  phrases : List PhraseEntry
deriving DecidableEq

/-- Ceiling division on naturals, the value of math.ceil of a true
quotient of two positive machine integers. -/
def ceilDiv (a b : Nat) : Nat := (a + b - 1) / b

/-- Successive slices of k elements, modelling the list-slice comprehension
at gen_wordlist.py line 398. -/
def sliceEvery (l : List α) (k : Nat) : List (List α) :=
  match l with
  | [] => []
  | c :: r =>
    if k = 0 then [] else (c :: r).take k :: sliceEvery ((c :: r).drop k) k
termination_by l.length
decreasing_by
  rename_i hk
  have : (c :: r).length - k < (c :: r).length :=
    Nat.sub_lt (by simp) (Nat.pos_of_ne_zero hk)
  simpa [List.length_drop] using this

/-- Decimal rendering of a chunk number. -/
def numStr (n : Nat) : List Char := (toString n).toList

/-- Output artifact assembly of gen_wordlist.py lines 395 to 419: when a
chunk size is given, is nonzero (value 0 is falsy in Python and disables
splitting) and is exceeded by the entry count, write one artifact per
balanced chunk with numbered id and name and with the phrase entries whose
word belongs to the chunk; otherwise write a single artifact. The Python
flag is an int, so only nonnegative sizes are modelled. -/
def assembleArtifacts (split : Option Nat) (id name : List Char)
    (entries : List WordEntry) (phraseEntries : List PhraseEntry) : List Artifact :=
  match split with
  | some k =>
    if k ≠ 0 ∧ entries.length > k then
      let numChunks := ceilDiv entries.length k
      let csize := ceilDiv entries.length numChunks
      (sliceEvery entries csize).enum.map fun p =>
        { id := id ++ numStr (p.1 + 1)
          name := name ++ ' ' :: numStr (p.1 + 1)
          words := p.2
          phrases := phraseEntries.filter fun pe => pe.word ∈ p.2.map (fun e => e.word) }
    else [⟨id, name, entries, phraseEntries⟩]
  | none => [⟨id, name, entries, phraseEntries⟩]

/-- Exit code of the run after output assembly, gen_wordlist.py lines 436
to 438: nonzero exactly when no entries survived. -/
def runExitCode (entries : List WordEntry) : Nat := if entries = [] then 1 else 0

/-- Artifacts written and exit code of the output phase of a generation
run. The write at lines 418 to 419 is unconditional; the empty-entries
check at line 436 runs only afterwards. -/
def runOutput (split : Option Nat) (id name : List Char)
    (entries : List WordEntry) (phraseEntries : List PhraseEntry) :
    List Artifact × Nat :=
  (assembleArtifacts split id name entries phraseEntries, runExitCode entries)

/-- Update of the category-enumeration dict for one row, gen_wordlist.py
lines 228 to 232: the stored label is replaced by the current row's label
and the count is incremented, with no condition on the movie field. -/
def updateCat (slug label : List Char) :
    List (List Char × (List Char × Nat)) → List (List Char × (List Char × Nat))
  | [] => [(slug, (label, 1))]
  | (k, (lab, n)) :: r =>
    if k = slug then (k, (label, n + 1)) :: r else (k, (lab, n)) :: updateCat slug label r

/-- Fold of the category-enumeration mode over all rows. -/
def catsFold (rows : List Row) : List (List Char × (List Char × Nat)) :=
  rows.foldl
    (fun acc row =>
      let slug := pyStrip row.category_slug
      let label := pyStrip row.category
      if slug = [] then acc else updateCat slug label acc)
    []

/-- Category enumeration of gen_wordlist.py lines 226 to 236: each distinct
nonempty slug with its stored label and count, sorted by slug (Python
sorts strings by code points, the lexicographic order on Char). -/
def listCategories (rows : List Row) : List (List Char × List Char × Nat) :=
  let cats := catsFold rows
  (List.insertionSort (fun a b : List Char => a ≤ b) (cats.map (fun p => p.1))).map
    fun s =>
      match alookup s cats with
      | some (lab, n) => (s, lab, n)
      | none => (s, [], 0)

/-- Reading of a string field from a parsed phrase record, modelling
p.get(key, empty string) immediately followed by .strip(): a missing key
yields the empty default, a string value is stripped, and any non-string
value makes the .strip() attribute access raise, modelled as an error. -/
def pyGetStrField (d : List (List Char × PyVal)) (key : List Char) :
    Except Unit (List Char) :=
  match alookup key d with
  | none => Except.ok []
  | some (PyVal.str s) => Except.ok (pyStrip s)
  | some _ => Except.error ()

/-- Processing of one parsed phrase record by the loop at gen_wordlist.py
lines 360 to 379 in pattern-bracketing mode: a non-dict record makes the
.get attribute access raise (modelled as an error); blank phrase or movie
skips the record; otherwise the phrase is cleaned, rejected if empty, and
bracketed. -/
def phraseStep (word : List Char) (p : PyVal) : Except Unit (Option PhraseEntry) :=
  match p with
  | PyVal.dict d =>
    (pyGetStrField d (ofStr "phrase")).bind fun pt =>
    (pyGetStrField d (ofStr "movie")).bind fun mv =>
    if pt = [] ∨ mv = [] then Except.ok none
    else
      let cleaned := cleanW pt
      if cleaned = [] then Except.ok none
      else Except.ok (some ⟨word, auto_bracket word cleaned, extract_video_filename mv⟩)
  | _ => Except.error ()

/-- Phrase-entry extraction for the records of one parsed phrase list; an
error aborts the whole run, as an uncaught exception does. -/
def buildPhraseList (word : List Char) : List PyVal → Except Unit (List PhraseEntry)
  | [] => Except.ok []
  | p :: ps =>
    (phraseStep word p).bind fun o =>
    (buildPhraseList word ps).map fun l =>
      match o with
      | some e => e :: l
      | none => l

/-- Phrase extraction for one word's catalog row: permissive column parse,
then record-by-record processing. -/
def extractPhrasesForRow (word : List Char) (col : PhrasesCol) :
    Except Unit (List PhraseEntry) :=
  buildPhraseList word (parse_phrases_column col)

/-- Record shape under which phrase extraction cannot raise: a dict whose
phrase and movie fields, when present, are strings. -/
def recordOk : PyVal → Bool
  | PyVal.dict d =>
    (match alookup (ofStr "phrase") d with
     | none => true
     | some (PyVal.str _) => true
     | some _ => false) &&
    (match alookup (ofStr "movie") d with
     | none => true
     | some (PyVal.str _) => true
     | some _ => false)
  | _ => false

/-! Helper lemmas: association lookup and the frequency table. -/

theorem alookup_append (k : List Char) (xs ys : List (List Char × β)) :
    alookup k (xs ++ ys) =
      match alookup k xs with
      | some v => some v
      | none => alookup k ys := by
  induction xs with
  | nil => simp [alookup]
  | cons p r ih =>
    obtain ⟨k2, v⟩ := p
    by_cases h : k2 = k <;> simp [alookup, h, ih]

theorem alookup_snoc_bound (acc : List (List Char × Nat)) (word : List Char)
    (h : ∀ w r, alookup w acc = some r → r < acc.length) :
    ∀ w r, alookup w (acc ++ [(word, acc.length)]) = some r →
      r < (acc ++ [(word, acc.length)]).length := by
  intro w r hl
  rw [alookup_append] at hl
  simp only [List.length_append, List.length_cons, List.length_nil]
  cases hacc : alookup w acc with
  | some v =>
    rw [hacc] at hl
    injection hl with hvr
    subst hvr
    exact Nat.lt_succ_of_lt (h w _ hacc)
  | none =>
    rw [hacc] at hl
    by_cases hw : word = w
    · simp [alookup, hw] at hl
      omega
    · simp [alookup, hw] at hl

theorem addFreqLine_bound (acc : List (List Char × Nat)) (line : List Char)
    (h : ∀ w r, alookup w acc = some r → r < acc.length) :
    ∀ w r, alookup w (addFreqLine acc line) = some r → r < (addFreqLine acc line).length := by
  intro w r
  unfold addFreqLine
  dsimp only
  split
  · split
    · exact alookup_snoc_bound acc _ h w r
    · exact h w r
  · exact h w r

theorem load_frequency_bound (lines : List (List Char)) :
    ∀ w r, alookup w (load_frequency lines) = some r → r < (load_frequency lines).length := by
  unfold load_frequency
  suffices hgen : ∀ (ls : List (List Char)) (acc : List (List Char × Nat)),
      (∀ w r, alookup w acc = some r → r < acc.length) →
      ∀ w r, alookup w (ls.foldl addFreqLine acc) = some r →
        r < (ls.foldl addFreqLine acc).length by
    exact hgen lines [] (by intro w r hl; simp [alookup] at hl)
  intro ls
  induction ls with
  | nil => intro acc h; exact h
  | cons l t ih =>
    intro acc h
    exact ih (addFreqLine acc l) (addFreqLine_bound acc l h)

theorem rankOf_lt_of_isSome (freq : List (List Char × Nat)) (w : List Char)
    (hb : ∀ w r, alookup w freq = some r → r < freq.length)
    (h : (alookup w freq).isSome = true) : rankOf freq w < freq.length := by
  obtain ⟨r, hr⟩ := Option.isSome_iff_exists.mp h
  rw [rankOf, hr]
  exact hb w r hr

theorem rankOf_of_isNone (freq : List (List Char × Nat)) (w : List Char)
    (h : (alookup w freq).isNone = true) : rankOf freq w = freq.length := by
  rw [rankOf, Option.isNone_iff_eq_none.mp h]
  rfl

/-! Helper lemmas: stability and structure of the insertion sort that embeds
Python's stable list.sort. -/

theorem orderedInsert_all_le (r : α → α → Prop) [DecidableRel r] (a : α) (ys : List α)
    (h : ∀ y ∈ ys, r a y) : List.orderedInsert r a ys = a :: ys := by
  cases ys with
  | nil => rfl
  | cons y t => rw [List.orderedInsert, if_pos (h y (by simp))]

theorem insertionSort_all (r : α → α → Prop) [DecidableRel r] (h : ∀ a b, r a b)
    (l : List α) : List.insertionSort r l = l := by
  induction l with
  | nil => rfl
  | cons a t ih =>
    rw [List.insertionSort, ih, orderedInsert_all_le r a t (fun y _ => h a y)]

theorem orderedInsert_append_not (r : α → α → Prop) [DecidableRel r] (a : α)
    (xs ys : List α) (h : ∀ x ∈ xs, ¬ r a x) :
    List.orderedInsert r a (xs ++ ys) = xs ++ List.orderedInsert r a ys := by
  induction xs with
  | nil => simp
  | cons x t ih =>
    rw [List.cons_append, List.orderedInsert, if_neg (h x (by simp)), List.cons_append,
      ih (fun x hx => h x (by simp [hx]))]

theorem orderedInsert_append_all (r : α → α → Prop) [DecidableRel r] (a : α)
    (xs ys : List α) (h : ∀ y ∈ ys, r a y) :
    List.orderedInsert r a (xs ++ ys) = List.orderedInsert r a xs ++ ys := by
  induction xs with
  | nil => simp [orderedInsert_all_le r a ys h]
  | cons x t ih =>
    by_cases hx : r a x
    · rw [List.cons_append, List.orderedInsert, if_pos hx, List.orderedInsert, if_pos hx]
      rfl
    · rw [List.cons_append, List.orderedInsert, if_neg hx, List.orderedInsert, if_neg hx,
        List.cons_append, ih]

theorem filter_orderedInsert_key (key : α → Nat) (n : Nat) (a : α) (l : List α) :
    (List.orderedInsert (fun x y => key x ≤ key y) a l).filter (fun x => key x == n) =
      if key a = n then a :: l.filter (fun x => key x == n)
      else l.filter (fun x => key x == n) := by
  induction l with
  | nil => by_cases h : key a = n <;> simp [List.orderedInsert, h]
  | cons b t ih =>
    by_cases hab : key a ≤ key b
    · rw [List.orderedInsert, if_pos hab]
      by_cases h : key a = n <;> simp [List.filter_cons, h]
    · rw [List.orderedInsert, if_neg hab]
      by_cases hb : key b = n
      · have h : ¬ key a = n := fun h => hab (by rw [h, hb])
        simp [List.filter_cons, hb, ih, h]
      · by_cases h : key a = n <;> simp [List.filter_cons, hb, ih, h]

theorem filter_insertionSort_key (key : α → Nat) (n : Nat) (l : List α) :
    (List.insertionSort (fun x y => key x ≤ key y) l).filter (fun x => key x == n) =
      l.filter (fun x => key x == n) := by
  induction l with
  | nil => rfl
  | cons a t ih =>
    rw [List.insertionSort, filter_orderedInsert_key, ih]
    by_cases h : key a = n <;> simp [List.filter_cons, h]

theorem insertionSort_partition_top (key : α → Nat) (M : Nat) (l : List α)
    (hle : ∀ x ∈ l, key x ≤ M) :
    List.insertionSort (fun x y => key x ≤ key y) l =
      List.insertionSort (fun x y => key x ≤ key y)
          (l.filter fun x => decide (key x < M)) ++
        l.filter (fun x => key x == M) := by
  induction l with
  | nil => rfl
  | cons a t ih =>
    have ht : ∀ x ∈ t, key x ≤ M := fun x hx => hle x (by simp [hx])
    rw [List.insertionSort, ih ht]
    by_cases hM : key a = M
    · rw [orderedInsert_append_not _ a _ _ ?hnot]
      case hnot =>
        intro x hx
        have hx2 : x ∈ t.filter fun x => decide (key x < M) :=
          (List.mem_insertionSort _).mp hx
        have := (List.mem_filter.mp hx2).2
        simp at this
        omega
      rw [orderedInsert_all_le _ a _ ?hall]
      case hall =>
        intro y hy
        have := (List.mem_filter.mp hy).2
        simp at this
        omega
      have h1 : (a :: t).filter (fun x => decide (key x < M)) =
          t.filter (fun x => decide (key x < M)) := by
        simp [List.filter_cons, hM]
      have h2 : (a :: t).filter (fun x => key x == M) =
          a :: t.filter (fun x => key x == M) := by
        simp [List.filter_cons, hM]
      rw [h1, h2]
    · have hlt : key a < M := Nat.lt_of_le_of_ne (hle a (by simp)) hM
      rw [orderedInsert_append_all _ a _ _ ?hall2]
      case hall2 =>
        intro y hy
        have := (List.mem_filter.mp hy).2
        simp at this
        omega
      have h1 : (a :: t).filter (fun x => decide (key x < M)) =
          a :: t.filter (fun x => decide (key x < M)) := by
        simp [List.filter_cons, hlt]
      have h2 : (a :: t).filter (fun x => key x == M) =
          t.filter (fun x => key x == M) := by
        simp [List.filter_cons, hM]
      rw [h1, h2, List.insertionSort]

theorem countP_filter_of_pos (p : List Char → Bool) (w : List Char) (hw : p w = true) :
    ∀ l : List (List Char),
      (l.filter p).countP (fun x => x == w) = l.countP (fun x => x == w) := by
  intro l
  induction l with
  | nil => rfl
  | cons c t ih =>
    by_cases hc : c = w
    · subst hc
      simp [List.filter_cons, hw, List.countP_cons, ih]
    · by_cases hpc : p c = true <;>
        simp [List.filter_cons, hpc, List.countP_cons, ih, hc]

theorem buildEntries_noVerify_countP (lookup : List (List Char × Row))
    (verify : List Char → Bool) (w : List Char) :
    ∀ cs : List (List Char), (∀ x ∈ cs, (alookup x lookup).isSome = true) →
      (buildEntries verify true lookup cs).countP (fun e => e.word == w) =
        cs.countP (fun x => x == w) := by
  intro cs
  induction cs with
  | nil => intro _; rfl
  | cons c t ih =>
    intro hall
    have hc := hall c (by simp)
    obtain ⟨row, hrow⟩ := Option.isSome_iff_exists.mp hc
    have ht : ∀ x ∈ t, (alookup x lookup).isSome = true :=
      fun x hx => hall x (List.mem_cons_of_mem c hx)
    by_cases hcw : c = w
    · subst hcw
      simp [buildEntries, List.filterMap_cons, hrow, List.countP_cons, ← ih ht, buildEntries]
    · simp [buildEntries, List.filterMap_cons, hrow, List.countP_cons, hcw, ← ih ht,
        buildEntries]

/-- C7: for every frequency table produced by load_frequency and every
candidate list, sorting by frequency rank is stable — candidates with equal
rank (in particular all candidates absent from the table, whose implicit
rank is the table size) retain their relative order, and candidates absent
from the table sort after all candidates present in it. -/
theorem sort_by_frequency_stable (lines : List (List Char)) (C : List (List Char)) :
    (∀ n : Nat,
      (sortByRank (load_frequency lines) C).filter
          (fun w => rankOf (load_frequency lines) w == n) =
        C.filter (fun w => rankOf (load_frequency lines) w == n)) ∧
    sortByRank (load_frequency lines) C =
      sortByRank (load_frequency lines)
          (C.filter fun w => (alookup w (load_frequency lines)).isSome) ++
        C.filter (fun w => (alookup w (load_frequency lines)).isNone) := by
  constructor
  · intro n
    exact filter_insertionSort_key (rankOf (load_frequency lines)) n C
  · have hbound := load_frequency_bound lines
    have hle : ∀ x ∈ C, rankOf (load_frequency lines) x ≤ (load_frequency lines).length := by
      intro x _
      cases hx : alookup x (load_frequency lines) with
      | none => rw [rankOf, hx]; exact Nat.le_refl _
      | some r => rw [rankOf, hx]; exact Nat.le_of_lt (hbound x r hx)
    have hpart := insertionSort_partition_top (rankOf (load_frequency lines))
      (load_frequency lines).length C hle
    have hflt : (C.filter fun x => decide (rankOf (load_frequency lines) x <
        (load_frequency lines).length)) =
        C.filter fun w => (alookup w (load_frequency lines)).isSome := by
      apply List.filter_congr
      intro x _
      cases hx : alookup x (load_frequency lines) with
      | none =>
        have : rankOf (load_frequency lines) x = (load_frequency lines).length := by
          rw [rankOf, hx]; rfl
        simp [this, hx]
      | some r =>
        have : rankOf (load_frequency lines) x < (load_frequency lines).length := by
          rw [rankOf, hx]; exact hbound x r hx
        simp [this, hx]
    have hfeq : (C.filter fun x => rankOf (load_frequency lines) x ==
        (load_frequency lines).length) =
        C.filter fun w => (alookup w (load_frequency lines)).isNone := by
      apply List.filter_congr
      intro x _
      cases hx : alookup x (load_frequency lines) with
      | none =>
        have : rankOf (load_frequency lines) x = (load_frequency lines).length := by
          rw [rankOf, hx]; rfl
        simp [this, hx]
      | some r =>
        have : rankOf (load_frequency lines) x < (load_frequency lines).length := by
          rw [rankOf, hx]; exact hbound x r hx
        simp [hx]
        omega
    rw [sortByRank, hpart, hflt, hfeq]
    rfl

/-- C1 (amended): in word-file mode the words array preserves the
input-file order of the supplied words (restricted to the lookup, trimmed
to the maximum count and to verified videos) only through the stable sort's
tie handling; the preserved-order equation holds whenever the frequency
table is empty, e.g. when the corpus file is missing. In general the
candidates are re-sorted by ascending frequency rank first (see the
counterexample). -/
theorem wordfile_order_preserved_when_freq_empty (rows : List Row)
    (slugs : List (List Char)) (lines : List (List Char)) (maxlength : Nat)
    (verify : List Char → Bool) (noVerify : Bool) :
    pipelineWords rows slugs (some lines) [] maxlength verify noVerify =
      buildEntries verify noVerify (buildWordLookup rows slugs)
        (((wordfileWords lines).filter fun w =>
            (alookup w (buildWordLookup rows slugs)).isSome).take maxlength) := by
  unfold pipelineWords selectCandidates sortByRank
  dsimp only
  rw [insertionSort_all _ (fun a b => by rw [rankOf, rankOf]; simp [alookup])]

/-- Concrete frequency corpus giving word a rank 0 and word b rank 1. -/
def freqAB : List (List Char × Nat) :=
  load_frequency [ofStr "a\tx\tx\tx\tx", ofStr "b\tx\tx\tx\tx"]

/-- Catalog row for a one-letter word with a usable video. -/
def mkRow (w v : String) : Row := ⟨ofStr w, ofStr v, [], [], [], PhrasesCol.blank⟩

/-- C1 counterexample: with word file lines b then a and a frequency table
ranking a before b, the emitted words array is a then b — the input-file
order of the supplied words is not preserved. -/
theorem wordfile_order_not_preserved :
    ((pipelineWords [mkRow "b" "b-00001-tecken.mp4", mkRow "a" "a-00002-tecken.mp4"]
        [] (some [ofStr "b", ofStr "a"]) freqAB 100 (fun _ => true) true).map
      (fun e => e.word) = [ofStr "a", ofStr "b"]) ∧
    [ofStr "a", ofStr "b"] ≠ [ofStr "b", ofStr "a"] := by
  constructor
  · decide
  · decide

/-- C10: candidate words taken from a word file are not deduplicated — each
occurrence of a lookup word in the (stripped, non-blank) word-file lines
yields one entry, so with verification skipped and no trimming the output
words array contains one entry per occurrence of the word. -/
theorem wordfile_duplicates_kept (rows : List Row) (lines : List (List Char))
    (freq : List (List Char × Nat)) (maxlength : Nat) (verify : List Char → Bool)
    (w : List Char)
    (hw : (alookup w (buildWordLookup rows [])).isSome = true)
    (hlen : ((wordfileWords lines).filter fun x =>
        (alookup x (buildWordLookup rows [])).isSome).length ≤ maxlength) :
    (pipelineWords rows [] (some lines) freq maxlength verify true).countP
        (fun e => e.word == w) =
      (wordfileWords lines).countP (fun x => x == w) := by
  unfold pipelineWords selectCandidates
  dsimp only
  have hperm : List.Perm (sortByRank freq ((wordfileWords lines).filter fun x =>
      (alookup x (buildWordLookup rows [])).isSome))
      ((wordfileWords lines).filter fun x =>
        (alookup x (buildWordLookup rows [])).isSome) :=
    List.perm_insertionSort _ _
  rw [List.take_of_length_le (by rw [hperm.length_eq]; exact hlen)]
  rw [buildEntries_noVerify_countP _ _ _ _ (by
    intro x hx
    have hx2 := (List.mem_insertionSort _).mp hx
    exact (List.mem_filter.mp hx2).2)]
  rw [hperm.countP_eq]
  exact countP_filter_of_pos _ w hw _

/-- Witness for C10 at a concrete input: the word file repeats the word
hund, which is present in the lookup; the output carries two hund entries. -/
theorem wordfile_duplicates_kept_witness :
    ((alookup (ofStr "hund")
        (buildWordLookup [mkRow "hund" "hund-00222-tecken.mp4"] [])).isSome = true) ∧
    (((wordfileWords [ofStr "hund", ofStr "katt", ofStr "hund"]).filter fun x =>
        (alookup x (buildWordLookup [mkRow "hund" "hund-00222-tecken.mp4"] [])).isSome).length
      ≤ 100) ∧
    (pipelineWords [mkRow "hund" "hund-00222-tecken.mp4"] []
        (some [ofStr "hund", ofStr "katt", ofStr "hund"]) [] 100 (fun _ => true) true).countP
        (fun e => e.word == ofStr "hund") =
      (wordfileWords [ofStr "hund", ofStr "katt", ofStr "hund"]).countP
        (fun x => x == ofStr "hund") :=
  ⟨by decide, by decide,
    wordfile_duplicates_kept [mkRow "hund" "hund-00222-tecken.mp4"]
      [ofStr "hund", ofStr "katt", ofStr "hund"] [] 100 (fun _ => true) (ofStr "hund")
      (by decide) (by decide)⟩

/-- C2 counterexample: with zero surviving entries the exit code is 1, but
the output artifact — with an empty words array — is still written before
the empty-entries check runs: the written-artifact list is not empty. -/
theorem no_entries_still_writes :
    runOutput none (ofStr "x") (ofStr "X") [] [] =
      ([⟨ofStr "x", ofStr "X", [], []⟩], 1) ∧
    ((runOutput none (ofStr "x") (ofStr "X") [] []).1 ≠ []) := by
  constructor
  · rfl
  · decide

/-- C2 (amended): if zero word entries survive selection and verification
the run terminates with a non-zero exit, but the wordlist artifact for the
run is still written first — a single complete artifact whose words array
is empty (and whose phrases are whatever was computed); the write is not
partial, but it does happen. -/
theorem zero_entries_exit_nonzero_but_writes (split : Option Nat)
    (id name : List Char) (pes : List PhraseEntry) :
    (runOutput split id name [] pes).2 = 1 ∧
    (runOutput split id name [] pes).1 = [⟨id, name, [], pes⟩] := by
  refine ⟨rfl, ?_⟩
  cases split with
  | none => rfl
  | some k =>
    simp [runOutput, assembleArtifacts]

/-- C3 counterexample: leading-marker stripping is case-sensitive in both
scripts (neither substitution passes re.IGNORECASE), so a raw phrase whose
marker is spelled with a capital A is not stripped, contradicting the
claimed case-insensitive stripping. -/
theorem alt_marker_case_sensitive :
    cleanW (ofStr "Alt 1.  Hunden  skäller.") = ofStr "Alt 1. Hunden skäller." ∧
    cleanW (ofStr "Alt 1.  Hunden  skäller.") ≠ ofStr "Hunden skäller." ∧
    cleanP (ofStr "Alt 1.  Hunden  skäller.") = ofStr "Alt 1. Hunden skäller." := by
  refine ⟨by decide, by decide, by decide⟩

/-- C3 (amended): cleaning strips a leading enumeration marker written with
lowercase alt only — in gen_wordlist.py with at least one whitespace
character required between alt and the number, in gen_phrases.py with that
whitespace optional — then collapses whitespace runs and trims; the
concrete scenario for the lowercase raw phrase holds as claimed, including
its pattern bracketing. -/
theorem alt_marker_cleaning_behaviour :
    (∀ s : List Char, stripAltW ('A' :: s) = 'A' :: s) ∧
    (∀ s : List Char, stripAltP ('A' :: s) = 'A' :: s) ∧
    cleanW (ofStr "alt1.  Hunden  skäller.") = ofStr "alt1. Hunden skäller." ∧
    cleanP (ofStr "alt1.  Hunden  skäller.") = ofStr "Hunden skäller." ∧
    cleanW (ofStr "alt 1.  Hunden  skäller.") = ofStr "Hunden skäller." ∧
    cleanP (ofStr "alt 1.  Hunden  skäller.") = ofStr "Hunden skäller." ∧
    auto_bracket (ofStr "hund") (ofStr "Hunden skäller.") = ofStr "[Hunden] skäller." := by
  have hA : ('A' : Char) ≠ 'a' := by decide
  refine ⟨?_, ?_, by decide, by decide, by decide, by decide, by decide⟩
  · intro s
    simp [stripAltW, stripAltCore, expectChar, hA]
  · intro s
    simp [stripAltP, stripAltCore, expectChar, hA]

theorem sliceEvery_flatten_aux (k : Nat) (hk : k ≠ 0) :
    ∀ (n : Nat) (l : List α), l.length ≤ n → (sliceEvery l k).flatten = l := by
  intro n
  induction n with
  | zero =>
    intro l hl
    rw [List.length_eq_zero.mp (Nat.le_zero.mp hl)]
    simp [sliceEvery]
  | succ n ih =>
    intro l hl
    cases l with
    | nil => simp [sliceEvery]
    | cons c r =>
      rw [sliceEvery, if_neg hk, List.flatten_cons]
      have hlen : ((c :: r).drop k).length ≤ n := by
        simp only [List.length_drop, List.length_cons]
        simp only [List.length_cons] at hl
        omega
      rw [ih _ hlen, List.take_append_drop]

theorem sliceEvery_flatten (k : Nat) (hk : k ≠ 0) (l : List α) :
    (sliceEvery l k).flatten = l :=
  sliceEvery_flatten_aux k hk l.length l (Nat.le_refl _)

theorem sliceEvery_length_le_aux (k : Nat) :
    ∀ (n : Nat) (l : List α), l.length ≤ n → ∀ a ∈ sliceEvery l k, a.length ≤ k := by
  intro n
  induction n with
  | zero =>
    intro l hl
    rw [List.length_eq_zero.mp (Nat.le_zero.mp hl)]
    intro a ha
    simp [sliceEvery] at ha
  | succ n ih =>
    intro l hl
    cases l with
    | nil => intro a ha; simp [sliceEvery] at ha
    | cons c r =>
      by_cases hk : k = 0
      · intro a ha; simp [sliceEvery, hk] at ha
      · rw [sliceEvery, if_neg hk]
        intro a ha
        rcases List.mem_cons.mp ha with h | h
        · subst h
          exact List.length_take_le k _
        · have hlen : ((c :: r).drop k).length ≤ n := by
            simp only [List.length_drop, List.length_cons]
            simp only [List.length_cons] at hl
            omega
          exact ih _ hlen a h

theorem sliceEvery_length_le (k : Nat) (l : List α) :
    ∀ a ∈ sliceEvery l k, a.length ≤ k :=
  sliceEvery_length_le_aux k l.length l (Nat.le_refl _)

theorem ceilDiv_pos (a b : Nat) (ha : 0 < a) (hb : 0 < b) : 0 < ceilDiv a b := by
  have := (Nat.le_div_iff_mul_le hb).mpr (show 1 * b ≤ a + b - 1 by omega)
  rw [ceilDiv]
  omega

/-- C9: when the entry count exceeds the (positive) requested chunk size,
splitting produces chunks none of which is larger than the balanced bound
(the ceiling of total over the ceiling of total over the chunk size), and
concatenating the words arrays of all written artifacts in order
reproduces the original entry order exactly (hence selection order is
preserved within each chunk). -/
theorem chunk_split_balanced (entries : List WordEntry) (pes : List PhraseEntry)
    (id name : List Char) (k : Nat) (hk : 0 < k) (hgt : k < entries.length) :
    (∀ a ∈ assembleArtifacts (some k) id name entries pes,
        a.words.length ≤ ceilDiv entries.length (ceilDiv entries.length k)) ∧
    ((assembleArtifacts (some k) id name entries pes).map (fun a => a.words)).flatten =
      entries := by
  have hcond : k ≠ 0 ∧ entries.length > k := ⟨Nat.pos_iff_ne_zero.mp hk, hgt⟩
  have hn : 0 < entries.length := Nat.lt_of_le_of_lt (Nat.zero_le k) hgt
  have hnum : 0 < ceilDiv entries.length k := ceilDiv_pos _ _ hn hk
  have hcs : 0 < ceilDiv entries.length (ceilDiv entries.length k) :=
    ceilDiv_pos _ _ hn hnum
  constructor
  · intro a ha
    rw [assembleArtifacts, if_pos hcond] at ha
    obtain ⟨p, hp, hpa⟩ := List.mem_map.mp ha
    have hmem : p.2 ∈ sliceEvery entries (ceilDiv entries.length (ceilDiv entries.length k)) :=
      List.snd_mem_of_mem_enum hp
    have := sliceEvery_length_le _ entries p.2 hmem
    rw [← hpa]
    exact this
  · rw [assembleArtifacts, if_pos hcond]
    rw [List.map_map]
    have : ((fun a => Artifact.words a) ∘ fun p =>
        ({ id := id ++ numStr (p.1 + 1), name := name ++ ' ' :: numStr (p.1 + 1),
           words := p.2,
           phrases := pes.filter fun pe =>
             pe.word ∈ p.2.map (fun e => e.word) } : Artifact)) =
        fun p : Nat × List WordEntry => p.2 := rfl
    rw [this, List.enum_map_snd]
    exact sliceEvery_flatten _ (Nat.pos_iff_ne_zero.mp hcs) entries

/-- Witness for C9 at a concrete input: five entries split with requested
chunk size two give three chunks of sizes two, two and one, whose
concatenation is the original list. -/
theorem chunk_split_balanced_witness :
    0 < 2 ∧ 2 < ([⟨ofStr "a", []⟩, ⟨ofStr "b", []⟩, ⟨ofStr "c", []⟩,
        ⟨ofStr "d", []⟩, ⟨ofStr "e", []⟩] : List WordEntry).length ∧
    ((∀ a ∈ assembleArtifacts (some 2) (ofStr "i") (ofStr "n")
          [⟨ofStr "a", []⟩, ⟨ofStr "b", []⟩, ⟨ofStr "c", []⟩,
            ⟨ofStr "d", []⟩, ⟨ofStr "e", []⟩] [],
        a.words.length ≤ ceilDiv 5 (ceilDiv 5 2)) ∧
      ((assembleArtifacts (some 2) (ofStr "i") (ofStr "n")
          [⟨ofStr "a", []⟩, ⟨ofStr "b", []⟩, ⟨ofStr "c", []⟩,
            ⟨ofStr "d", []⟩, ⟨ofStr "e", []⟩] []).map (fun a => a.words)).flatten =
        [⟨ofStr "a", []⟩, ⟨ofStr "b", []⟩, ⟨ofStr "c", []⟩,
          ⟨ofStr "d", []⟩, ⟨ofStr "e", []⟩]) :=
  ⟨by decide, by decide,
    chunk_split_balanced [⟨ofStr "a", []⟩, ⟨ofStr "b", []⟩, ⟨ofStr "c", []⟩,
      ⟨ofStr "d", []⟩, ⟨ofStr "e", []⟩] [] (ofStr "i") (ofStr "n") 2
      (by decide) (by decide)⟩

/-! Helper lemmas: the category-enumeration fold. -/

theorem updateCat_lookup_eq (slug label : List Char)
    (acc : List (List Char × (List Char × Nat))) :
    alookup slug (updateCat slug label acc) =
      some (label, (((alookup slug acc).map Prod.snd).getD 0) + 1) := by
  induction acc with
  | nil => simp [updateCat, alookup]
  | cons p r ih =>
    obtain ⟨k, lab, n⟩ := p
    by_cases h : k = slug
    · subst h
      simp [updateCat, alookup]
    · simp [updateCat, h, alookup, ih]

theorem updateCat_lookup_ne (slug label s : List Char)
    (acc : List (List Char × (List Char × Nat))) (h : s ≠ slug) :
    alookup s (updateCat slug label acc) = alookup s acc := by
  induction acc with
  | nil => simp [updateCat, alookup, Ne.symm h]
  | cons p r ih =>
    obtain ⟨k, lab, n⟩ := p
    by_cases hk : k = slug
    · subst hk
      have hks : ¬ k = s := fun hc => h hc.symm
      simp [updateCat, alookup, hks]
    · simp only [updateCat, if_neg hk]
      by_cases hks : k = s
      · simp [alookup, hks]
      · simp [alookup, hks, ih]

theorem updateCat_keys_ne (slug label : List Char)
    (acc : List (List Char × (List Char × Nat)))
    (h : ∀ p ∈ acc, p.1 ≠ []) (hs : slug ≠ []) :
    ∀ p ∈ updateCat slug label acc, p.1 ≠ [] := by
  induction acc with
  | nil =>
    intro p hp
    simp [updateCat] at hp
    rw [hp]
    exact hs
  | cons q r ih =>
    obtain ⟨k, lab, n⟩ := q
    intro p hp
    by_cases hk : k = slug
    · subst hk
      simp [updateCat] at hp
      rcases hp with hp | hp
      · rw [hp]; exact hs
      · exact h p (by simp [hp])
    · simp [updateCat, hk] at hp
      rcases hp with hp | hp
      · rw [hp]
        exact h (k, lab, n) (by simp)
      · exact ih (fun q hq => h q (by simp [hq])) p hp

/-- Step function of catsFold, named for induction. -/
def catsStep (acc : List (List Char × (List Char × Nat))) (row : Row) :
    List (List Char × (List Char × Nat)) :=
  if pyStrip row.category_slug = [] then acc
  else updateCat (pyStrip row.category_slug) (pyStrip row.category) acc

theorem catsFold_eq_foldl (rows : List Row) :
    catsFold rows = rows.foldl catsStep [] := by
  rw [catsFold]
  congr 1

theorem catsFold_count_aux (rows : List Row) :
    ∀ (acc : List (List Char × (List Char × Nat))) (s : List Char), s ≠ [] →
      ((alookup s (rows.foldl catsStep acc)).map Prod.snd).getD 0 =
        ((alookup s acc).map Prod.snd).getD 0 +
          rows.countP (fun r => pyStrip r.category_slug == s) := by
  induction rows with
  | nil => intro acc s _; simp
  | cons row rest ih =>
    intro acc s hs
    rw [List.foldl_cons, ih (catsStep acc row) s hs, List.countP_cons]
    by_cases hrow : pyStrip row.category_slug = s
    · have hslug : pyStrip row.category_slug ≠ [] := by rw [hrow]; exact hs
      rw [catsStep, if_neg hslug, hrow, updateCat_lookup_eq]
      simp [hrow]
      omega
    · have : alookup s (catsStep acc row) = alookup s acc := by
        rw [catsStep]
        split
        · rfl
        · exact updateCat_lookup_ne _ _ _ acc (fun h => hrow h.symm)
      rw [this]
      simp [hrow]

theorem catsFold_label_aux (rows : List Row) :
    ∀ (acc : List (List Char × (List Char × Nat))) (s : List Char), s ≠ [] →
      (alookup s (rows.foldl catsStep acc)).map Prod.fst =
        match (rows.filter (fun r => pyStrip r.category_slug == s)).getLast? with
        | some r => some (pyStrip r.category)
        | none => (alookup s acc).map Prod.fst := by
  induction rows with
  | nil => intro acc s _; simp
  | cons row rest ih =>
    intro acc s hs
    rw [List.foldl_cons, ih (catsStep acc row) s hs]
    by_cases hrow : pyStrip row.category_slug = s
    · have hslug : pyStrip row.category_slug ≠ [] := by rw [hrow]; exact hs
      have hstep : alookup s (catsStep acc row) =
          some (pyStrip row.category, (((alookup s acc).map Prod.snd).getD 0) + 1) := by
        rw [catsStep, if_neg hslug, hrow, updateCat_lookup_eq]
      cases hfl : (rest.filter (fun r => pyStrip r.category_slug == s)).getLast? with
      | some q =>
        have : (rest.filter (fun r => pyStrip r.category_slug == s)) ≠ [] := by
          intro hnil
          rw [hnil] at hfl
          exact Option.noConfusion hfl
        obtain ⟨q0, l0, hl0⟩ := List.exists_cons_of_ne_nil this
        simp [List.filter_cons, hrow, hl0] at hfl ⊢
        rw [hfl]
      | none =>
        have hnil : (rest.filter (fun r => pyStrip r.category_slug == s)) = [] :=
          List.getLast?_eq_none_iff.mp hfl
        simp [List.filter_cons, hrow, hnil, hstep]
    · have hstep : alookup s (catsStep acc row) = alookup s acc := by
        rw [catsStep]
        split
        · rfl
        · exact updateCat_lookup_ne _ _ _ acc (fun h => hrow h.symm)
      simp [List.filter_cons, hrow, hstep]

theorem catsFold_isSome_aux (rows : List Row) :
    ∀ (acc : List (List Char × (List Char × Nat))) (s : List Char), s ≠ [] →
      (alookup s (rows.foldl catsStep acc)).isSome =
        ((alookup s acc).isSome || rows.any (fun r => pyStrip r.category_slug == s)) := by
  induction rows with
  | nil => intro acc s _; simp
  | cons row rest ih =>
    intro acc s hs
    rw [List.foldl_cons, ih (catsStep acc row) s hs, List.any_cons]
    by_cases hrow : pyStrip row.category_slug = s
    · have hslug : pyStrip row.category_slug ≠ [] := by rw [hrow]; exact hs
      have hstep : alookup s (catsStep acc row) =
          some (pyStrip row.category, (((alookup s acc).map Prod.snd).getD 0) + 1) := by
        rw [catsStep, if_neg hslug, hrow, updateCat_lookup_eq]
      simp [hstep, hrow]
    · have hstep : alookup s (catsStep acc row) = alookup s acc := by
        rw [catsStep]
        split
        · rfl
        · exact updateCat_lookup_ne _ _ _ acc (fun h => hrow h.symm)
      have hbeq : (pyStrip row.category_slug == s) = false := by simp [hrow]
      simp [hstep, hbeq]

theorem catsFold_keys_ne (rows : List Row) :
    ∀ p ∈ catsFold rows, p.1 ≠ [] := by
  rw [catsFold_eq_foldl]
  suffices hgen : ∀ (acc : List (List Char × (List Char × Nat))),
      (∀ p ∈ acc, p.1 ≠ []) → ∀ p ∈ rows.foldl catsStep acc, p.1 ≠ [] by
    exact hgen [] (by intro p hp; simp at hp)
  induction rows with
  | nil => intro acc h; exact h
  | cons row rest ih =>
    intro acc h
    rw [List.foldl_cons]
    apply ih
    rw [catsStep]
    split
    · exact h
    · rename_i hslug
      exact updateCat_keys_ne _ _ acc h hslug

theorem mem_map_fst_iff_isSome (s : List Char) (l : List (List Char × β)) :
    s ∈ l.map Prod.fst ↔ (alookup s l).isSome = true := by
  induction l with
  | nil =>
    constructor
    · intro h; cases h
    · intro h; exact Bool.noConfusion h
  | cons p r ih =>
    obtain ⟨k, v⟩ := p
    by_cases hk : k = s
    · subst hk
      have hl : alookup k ((k, v) :: r) = some v := by rw [alookup, if_pos rfl]
      rw [hl]
      simp only [List.map_cons, List.mem_cons, Option.isSome_some, iff_true]
      exact Or.inl trivial
    · have hl : alookup s ((k, v) :: r) = alookup s r := by rw [alookup, if_neg hk]
      rw [hl]
      simp only [List.map_cons, List.mem_cons]
      rw [← ih]
      constructor
      · rintro (h | h)
        · exact absurd h (Ne.symm hk)
        · exact h
      · exact Or.inr

/-- C4 counterexample: a catalog row whose video field is empty is still
counted by the enumerate-categories query — for a single such row the
reported count is 1, while the number of rows in that slug carrying a
usable (non-empty) video is 0. -/
theorem list_categories_counts_unusable :
    listCategories [⟨ofStr "w", [], ofStr "X", ofStr "x", [], PhrasesCol.blank⟩] =
      [(ofStr "x", ofStr "X", 1)] ∧
    ([⟨ofStr "w", [], ofStr "X", ofStr "x", [], PhrasesCol.blank⟩] : List Row).countP
        (fun r => !(pyStrip r.movie).isEmpty) = 0 ∧
    (1 : Nat) ≠ 0 :=
  ⟨by decide, by decide, by decide⟩

/-- C4 (amended): the enumerate-categories query returns, sorted by slug,
each distinct nonempty (stripped) category slug, with the display label of
the last catalog row bearing that slug, and a count equal to the number of
all catalog rows bearing that slug, regardless of whether their video field
is usable. -/
theorem list_categories_characterisation (rows : List Row) :
    List.Sorted (fun a b : List Char => a ≤ b)
        ((listCategories rows).map (fun t => t.1)) ∧
    (∀ s lab n, (s, lab, n) ∈ listCategories rows →
      s ≠ [] ∧
      n = rows.countP (fun r => pyStrip r.category_slug == s) ∧
      ((rows.filter (fun r => pyStrip r.category_slug == s)).getLast?).map
          (fun r => pyStrip r.category) = some lab) ∧
    (∀ r ∈ rows, pyStrip r.category_slug ≠ [] →
      ∃ lab n, (pyStrip r.category_slug, lab, n) ∈ listCategories rows) := by
  have hfstmap : ∀ s, ((match alookup s (catsFold rows) with
      | some (lab, n) => (s, lab, n)
      | none => (s, ([] : List Char), 0)) : List Char × List Char × Nat).1 = s := by
    intro s
    cases alookup s (catsFold rows) with
    | none => rfl
    | some v => obtain ⟨lab, n⟩ := v; rfl
  refine ⟨?_, ?_, ?_⟩
  · rw [listCategories]
    rw [List.map_map]
    have : ((fun t : List Char × List Char × Nat => t.1) ∘ fun s =>
        (match alookup s (catsFold rows) with
          | some (lab, n) => (s, lab, n)
          | none => (s, [], 0))) = fun s => s := by
      funext s
      exact hfstmap s
    rw [this]
    simp only [List.map_id']
    exact List.sorted_insertionSort _ _
  · intro s lab n hmem
    rw [listCategories] at hmem
    obtain ⟨x, hx, hgx⟩ := List.mem_map.mp hmem
    have hxs : x = s := by
      have := congrArg (fun t : List Char × List Char × Nat => t.1) hgx
      simpa [hfstmap] using this
    subst hxs
    have hxk : x ∈ (catsFold rows).map Prod.fst := (List.mem_insertionSort _).mp hx
    have hne : x ≠ [] := by
      obtain ⟨p, hp, hps⟩ := List.mem_map.mp hxk
      rw [← hps]
      exact catsFold_keys_ne rows p hp
    have hsome := (mem_map_fst_iff_isSome x (catsFold rows)).mp hxk
    obtain ⟨v, hv⟩ := Option.isSome_iff_exists.mp hsome
    obtain ⟨lab2, n2⟩ := v
    rw [hv] at hgx
    have hlab : lab2 = lab := congrArg (fun t : List Char × List Char × Nat => t.2.1) hgx
    have hn : n2 = n := congrArg (fun t : List Char × List Char × Nat => t.2.2) hgx
    subst hlab
    subst hn
    have hcount := catsFold_count_aux rows [] x hne
    have hlabel := catsFold_label_aux rows [] x hne
    rw [catsFold_eq_foldl] at hv
    rw [hv] at hcount hlabel
    refine ⟨hne, ?_, ?_⟩
    · simpa [alookup] using hcount
    · cases hfl : (rows.filter (fun r => pyStrip r.category_slug == x)).getLast? with
      | none =>
        rw [hfl] at hlabel
        simp [alookup] at hlabel
      | some q =>
        rw [hfl] at hlabel
        simpa using hlabel.symm
  · intro r hr hrne
    have hany : rows.any (fun q => pyStrip q.category_slug == pyStrip r.category_slug) = true := by
      rw [List.any_eq_true]
      exact ⟨r, hr, by simp⟩
    have hsome : (alookup (pyStrip r.category_slug) (catsFold rows)).isSome = true := by
      rw [catsFold_eq_foldl, catsFold_isSome_aux rows [] _ hrne]
      simp [alookup, hany]
    obtain ⟨v, hv⟩ := Option.isSome_iff_exists.mp hsome
    obtain ⟨lab, n⟩ := v
    refine ⟨lab, n, ?_⟩
    rw [listCategories]
    apply List.mem_map.mpr
    refine ⟨pyStrip r.category_slug, ?_, by rw [hv]⟩
    rw [List.mem_insertionSort]
    exact (mem_map_fst_iff_isSome _ _).mpr hsome

/-- Witness for C4 at a concrete input: two rows share slug x (the second
with label Y), one row has slug y; the x entry reports count 2 and the
label of the last x row. -/
theorem list_categories_characterisation_witness :
    ((ofStr "x", ofStr "Y", 2) ∈ listCategories
        [⟨ofStr "w", [], ofStr "X", ofStr "x", [], PhrasesCol.blank⟩,
          ⟨ofStr "v", [], ofStr "Y", ofStr "x", [], PhrasesCol.blank⟩,
          ⟨ofStr "u", [], ofStr "Z", ofStr "y", [], PhrasesCol.blank⟩]) ∧
    (ofStr "x" ≠ [] ∧
      2 = ([⟨ofStr "w", [], ofStr "X", ofStr "x", [], PhrasesCol.blank⟩,
          ⟨ofStr "v", [], ofStr "Y", ofStr "x", [], PhrasesCol.blank⟩,
          ⟨ofStr "u", [], ofStr "Z", ofStr "y", [], PhrasesCol.blank⟩] : List Row).countP
          (fun r => pyStrip r.category_slug == ofStr "x") ∧
      (([⟨ofStr "w", [], ofStr "X", ofStr "x", [], PhrasesCol.blank⟩,
          ⟨ofStr "v", [], ofStr "Y", ofStr "x", [], PhrasesCol.blank⟩,
          ⟨ofStr "u", [], ofStr "Z", ofStr "y", [], PhrasesCol.blank⟩] : List Row).filter
          (fun r => pyStrip r.category_slug == ofStr "x")).getLast?.map
          (fun r => pyStrip r.category) = some (ofStr "Y")) :=
  ⟨by decide,
    (list_categories_characterisation
        [⟨ofStr "w", [], ofStr "X", ofStr "x", [], PhrasesCol.blank⟩,
          ⟨ofStr "v", [], ofStr "Y", ofStr "x", [], PhrasesCol.blank⟩,
          ⟨ofStr "u", [], ofStr "Z", ofStr "y", [], PhrasesCol.blank⟩]).2.1
      (ofStr "x") (ofStr "Y") 2 (by decide)⟩

/-- C5 counterexample: a phrases column that parses to a list with a
non-dict element is returned as-is by the permissive parse, and the
subsequent record processing then raises (the .get attribute access on an
int), aborting the run — the malformed sub-record is not skipped. -/
theorem phrase_record_nondict_aborts :
    parse_phrases_column (PhrasesCol.lit (PyVal.list [PyVal.num 1])) = [PyVal.num 1] ∧
    extractPhrasesForRow (ofStr "hund") (PhrasesCol.lit (PyVal.list [PyVal.num 1])) =
      Except.error () :=
  ⟨rfl, rfl⟩

theorem phraseStep_ok_of_recordOk (word : List Char) (p : PyVal)
    (h : recordOk p = true) : ∃ o, phraseStep word p = Except.ok o := by
  cases p with
  | str s => exact absurd h (by simp [recordOk])
  | num n => exact absurd h (by simp [recordOk])
  | list l => exact absurd h (by simp [recordOk])
  | other => exact absurd h (by simp [recordOk])
  | dict d =>
    simp only [recordOk, Bool.and_eq_true] at h
    obtain ⟨h1, h2⟩ := h
    have hph : ∃ pt, pyGetStrField d (ofStr "phrase") = Except.ok pt := by
      rw [pyGetStrField]
      cases hl : alookup (ofStr "phrase") d with
      | none => exact ⟨[], rfl⟩
      | some v =>
        cases v with
        | str s => exact ⟨pyStrip s, rfl⟩
        | num n => rw [hl] at h1; exact absurd h1 (by simp)
        | list l => rw [hl] at h1; exact absurd h1 (by simp)
        | dict d2 => rw [hl] at h1; exact absurd h1 (by simp)
        | other => rw [hl] at h1; exact absurd h1 (by simp)
    have hmv : ∃ mv, pyGetStrField d (ofStr "movie") = Except.ok mv := by
      rw [pyGetStrField]
      cases hl : alookup (ofStr "movie") d with
      | none => exact ⟨[], rfl⟩
      | some v =>
        cases v with
        | str s => exact ⟨pyStrip s, rfl⟩
        | num n => rw [hl] at h2; exact absurd h2 (by simp)
        | list l => rw [hl] at h2; exact absurd h2 (by simp)
        | dict d2 => rw [hl] at h2; exact absurd h2 (by simp)
        | other => rw [hl] at h2; exact absurd h2 (by simp)
    obtain ⟨pt, hpt⟩ := hph
    obtain ⟨mv, hmv2⟩ := hmv
    rw [phraseStep, hpt, hmv2]
    dsimp only [Except.bind]
    split
    · exact ⟨none, rfl⟩
    · split
      · exact ⟨none, rfl⟩
      · exact ⟨some ⟨word, auto_bracket word (cleanW pt), extract_video_filename mv⟩, rfl⟩

theorem buildPhraseList_ok_of_recordOk (word : List Char) :
    ∀ ps : List PyVal, (∀ p ∈ ps, recordOk p = true) →
      ∃ l, buildPhraseList word ps = Except.ok l := by
  intro ps
  induction ps with
  | nil => intro _; exact ⟨[], rfl⟩
  | cons p rest ih =>
    intro hall
    obtain ⟨o, ho⟩ := phraseStep_ok_of_recordOk word p (hall p (by simp))
    obtain ⟨l, hl⟩ := ih (fun q hq => hall q (List.mem_cons_of_mem p hq))
    rw [buildPhraseList, ho, hl]
    cases o with
    | none => exact ⟨l, rfl⟩
    | some e => exact ⟨e :: l, rfl⟩

/-- C5 (amended): a blank or unparseable phrases column, or one parsing to
a non-list value, yields an empty phrase list without any exception, and a
dict-shaped sub-record with a missing or blank phrase or movie field is
skipped without aborting; but list elements are not validated — a sub-record
that is not a dict (or whose phrase or movie value is not a string) raises
when processed and aborts the run. Extraction cannot raise exactly when
every element of the parsed list is a dict whose phrase and movie values,
where present, are strings. -/
theorem phrase_extraction_permissive :
    (parse_phrases_column PhrasesCol.blank = [] ∧
      parse_phrases_column PhrasesCol.malformed = []) ∧
    (∀ v : PyVal, (∀ l, v ≠ PyVal.list l) →
      parse_phrases_column (PhrasesCol.lit v) = []) ∧
    (∀ (word : List Char) (ps : List PyVal), (∀ p ∈ ps, recordOk p = true) →
      ∃ l, buildPhraseList word ps = Except.ok l) ∧
    (∀ (word : List Char) (d : List (List Char × PyVal)) (mv : List Char),
      pyGetStrField d (ofStr "phrase") = Except.ok [] →
      pyGetStrField d (ofStr "movie") = Except.ok mv →
      phraseStep word (PyVal.dict d) = Except.ok none) := by
  refine ⟨⟨rfl, rfl⟩, ?_, buildPhraseList_ok_of_recordOk, ?_⟩
  · intro v hv
    cases v with
    | list l => exact absurd rfl (hv l)
    | str s => rfl
    | num n => rfl
    | dict d => rfl
    | other => rfl
  · intro word d mv hblank hmv
    rw [phraseStep, hblank, hmv]
    dsimp only [Except.bind]
    rw [if_pos (Or.inl rfl)]

/-- Witness for C5 at concrete inputs: a well-shaped record list (one full
record, one empty dict) is processed without an error. -/
theorem phrase_extraction_permissive_witness :
    ((∀ p ∈ [PyVal.dict [(ofStr "phrase", PyVal.str (ofStr "Hunden skäller.")),
          (ofStr "movie", PyVal.str (ofStr "movies/00/hund-00222-fras-1.mp4"))],
        PyVal.dict []], recordOk p = true) ∧
      ∃ l, buildPhraseList (ofStr "hund")
          [PyVal.dict [(ofStr "phrase", PyVal.str (ofStr "Hunden skäller.")),
            (ofStr "movie", PyVal.str (ofStr "movies/00/hund-00222-fras-1.mp4"))],
          PyVal.dict []] = Except.ok l) :=
  ⟨by decide,
    phrase_extraction_permissive.2.2.1 (ofStr "hund")
      [PyVal.dict [(ofStr "phrase", PyVal.str (ofStr "Hunden skäller.")),
        (ofStr "movie", PyVal.str (ofStr "movies/00/hund-00222-fras-1.mp4"))],
      PyVal.dict []] (by decide)⟩

/-! Helper lemmas: characters, case-insensitive prefix matching, and list
splitting, used by the bracketing theorems. -/

theorem isWordChar_lcChar (c : Char) : isWordChar (lcChar c) = isWordChar c := by
  rw [lcChar.eq_def]
  split <;> rfl

theorem isWordChar_of_lcChar_eq {a b : Char} (h : lcChar a = lcChar b) :
    isWordChar a = isWordChar b := by
  rw [← isWordChar_lcChar a, h, isWordChar_lcChar]

theorem stripCI_some_spec : ∀ (w s m r : List Char), stripCI w s = some (m, r) →
    m ++ r = s ∧ lcList m = lcList w := by
  intro w
  induction w with
  | nil =>
    intro s m r h
    rw [stripCI] at h
    have h1 := Option.some.inj h
    have hm : m = [] := (congrArg Prod.fst h1).symm
    have hr : r = s := (congrArg Prod.snd h1).symm
    subst hm
    subst hr
    exact ⟨rfl, rfl⟩
  | cons a ws ih =>
    intro s m r h
    cases s with
    | nil => rw [stripCI] at h; exact Option.noConfusion h
    | cons c cs =>
      rw [stripCI] at h
      by_cases hlc : lcChar c = lcChar a
      · rw [if_pos hlc] at h
        cases hst : stripCI ws cs with
        | none => rw [hst] at h; exact Option.noConfusion h
        | some p =>
          obtain ⟨m2, r2⟩ := p
          rw [hst] at h
          simp only [Option.map_some'] at h
          have h1 := Option.some.inj h
          have hm : m = c :: m2 := (congrArg Prod.fst h1).symm
          have hr : r = r2 := (congrArg Prod.snd h1).symm
          subst hm
          subst hr
          obtain ⟨ha, hl⟩ := ih cs m2 _ hst
          refine ⟨by rw [List.cons_append, ha], ?_⟩
          simp only [lcList, List.map_cons]
          simp only [lcList] at hl
          rw [hlc, hl]
      · rw [if_neg hlc] at h
        exact Option.noConfusion h

theorem stripCI_of : ∀ (w m r : List Char), lcList m = lcList w →
    stripCI w (m ++ r) = some (m, r) := by
  intro w
  induction w with
  | nil =>
    intro m r h
    have hm : m = [] := by
      cases m with
      | nil => rfl
      | cons c m2 => simp [lcList] at h
    subst hm
    rfl
  | cons a ws ih =>
    intro m r h
    cases m with
    | nil => simp [lcList] at h
    | cons c m2 =>
      simp only [lcList, List.map_cons, List.cons.injEq] at h
      obtain ⟨h1, h2⟩ := h
      rw [List.cons_append, stripCI, if_pos h1, ih m2 r h2]
      rfl

theorem stripCI_none_iff (w s : List Char) :
    stripCI w s = none ↔ ∀ m r, s = m ++ r → lcList m ≠ lcList w := by
  constructor
  · intro h m r hs hlc
    rw [hs, stripCI_of w m r hlc] at h
    exact Option.noConfusion h
  · intro h
    cases hst : stripCI w s with
    | none => rfl
    | some p =>
      obtain ⟨m, r⟩ := p
      obtain ⟨ha, hl⟩ := stripCI_some_spec w s m r hst
      exact absurd hl (h m r ha.symm)

theorem wordchar_of_lcList_eq : ∀ (m w : List Char), lcList m = lcList w →
    (∀ c ∈ w, isWordChar c = true) → ∀ c ∈ m, isWordChar c = true := by
  intro m
  induction m with
  | nil => intro w _ _ c hc; cases hc
  | cons c m2 ih =>
    intro w hl hwc x hx
    cases w with
    | nil => simp [lcList] at hl
    | cons a ws =>
      simp only [lcList, List.map_cons, List.cons.injEq] at hl
      obtain ⟨h1, h2⟩ := hl
      rcases List.mem_cons.mp hx with hx | hx
      · subst hx
        rw [isWordChar_of_lcChar_eq h1]
        exact hwc a (by simp)
      · exact ih ws h2 (fun d hd => hwc d (List.mem_cons_of_mem a hd)) x hx

theorem stripCI_wordchar (w s m r : List Char) (h : stripCI w s = some (m, r))
    (hwc : ∀ c ∈ w, isWordChar c = true) : ∀ c ∈ m, isWordChar c = true :=
  wordchar_of_lcList_eq m w (stripCI_some_spec w s m r h).2 hwc

theorem splitLast_spec : ∀ (l ini : List Char) (e : Char),
    splitLast l = some (ini, e) → ini ++ [e] = l := by
  intro l
  induction l with
  | nil => intro ini e h; rw [splitLast] at h; exact Option.noConfusion h
  | cons a r ih =>
    intro ini e h
    rw [splitLast] at h
    cases hs : splitLast r with
    | none =>
      rw [hs] at h
      have h1 := Option.some.inj h
      have hi : ini = [] := (congrArg Prod.fst h1).symm
      have he : e = a := (congrArg Prod.snd h1).symm
      subst hi
      subst he
      cases r with
      | nil => rfl
      | cons b r2 =>
        rw [splitLast] at hs
        cases hs2 : splitLast r2 with
        | none => rw [hs2] at hs; exact Option.noConfusion hs
        | some p => rw [hs2] at hs; exact Option.noConfusion hs
    | some p =>
      obtain ⟨ini2, e2⟩ := p
      rw [hs] at h
      have h1 := Option.some.inj h
      have hi : ini = a :: ini2 := (congrArg Prod.fst h1).symm
      have he : e = e2 := (congrArg Prod.snd h1).symm
      subst hi
      subst he
      rw [List.cons_append, ih ini2 e hs]

theorem splitLast_none_iff (l : List Char) : splitLast l = none ↔ l = [] := by
  cases l with
  | nil => simp [splitLast]
  | cons a r =>
    constructor
    · intro h
      rw [splitLast] at h
      cases hs : splitLast r with
      | none => rw [hs] at h; exact Option.noConfusion h
      | some p => obtain ⟨i, e⟩ := p; rw [hs] at h; exact Option.noConfusion h
    · intro h; exact List.noConfusion h

theorem dropWhile_head_false (p : Char → Bool) :
    ∀ (l : List Char) (h : Char), (l.dropWhile p).head? = some h → p h = false := by
  intro l
  induction l with
  | nil => intro h hh; exact Option.noConfusion hh
  | cons c t ih =>
    intro h hh
    by_cases hp : p c = true
    · rw [List.dropWhile_cons_of_pos hp] at hh
      exact ih h hh
    · rw [List.dropWhile_cons_of_neg hp] at hh
      have : c = h := Option.some.inj hh
      subst this
      exact Bool.eq_false_iff.mpr hp

theorem span_unique (p : Char → Bool) :
    ∀ (e t : List Char), (∀ c ∈ e, p c = true) →
      (∀ d, t.head? = some d → p d = false) →
      (e ++ t).takeWhile p = e ∧ (e ++ t).dropWhile p = t := by
  intro e
  induction e with
  | nil =>
    intro t _ hd
    rw [List.nil_append]
    cases t with
    | nil => exact ⟨rfl, rfl⟩
    | cons d t2 =>
      have hpd : p d = false := hd d rfl
      refine ⟨List.takeWhile_cons_of_neg ?_, List.dropWhile_cons_of_neg ?_⟩ <;>
        · rw [hpd]; exact Bool.false_ne_true
  | cons c e2 ih =>
    intro t he hd
    have hpc : p c = true := he c (by simp)
    rw [List.cons_append, List.takeWhile_cons_of_pos hpc, List.dropWhile_cons_of_pos hpc]
    obtain ⟨h1, h2⟩ := ih t (fun d hd2 => he d (List.mem_cons_of_mem c hd2)) hd
    exact ⟨congrArg (fun x => c :: x) h1, h2⟩

theorem getLastD_irrel (l : List Char) (d1 d2 : Char) (h : l ≠ []) :
    l.getLastD d1 = l.getLastD d2 := by
  cases l with
  | nil => exact absurd rfl h
  | cons a r => simp only [List.getLastD_cons]

/-! Helper lemmas: characterisation of a single match attempt. -/

theorem tryMatch_none_of_lookbehind (w : List Char) (prev : Option Char) (s : List Char)
    (h : lookbehindOk prev = false) : tryMatch w prev s = none := by
  rw [tryMatch, h]
  rfl

theorem tryMatch_none_of_strip (w : List Char) (prev : Option Char) (s : List Char)
    (h : stripCI w s = none) : tryMatch w prev s = none := by
  by_cases hb : lookbehindOk prev = true
  · rw [tryMatch, if_pos hb, h]
  · exact tryMatch_none_of_lookbehind w prev s (Bool.not_eq_true _ ▸ hb)

theorem tryMatch_some_spec (w : List Char) (prev : Option Char) (s m2 rest : List Char)
    (h : tryMatch w prev s = some (m2, rest)) :
    lookbehindOk prev = true ∧
    ∃ m r, stripCI w s = some (m, r) ∧
      (((r.dropWhile isWordChar).head? ≠ some ']' ∧
          m2 = m ++ r.takeWhile isWordChar ∧ rest = r.dropWhile isWordChar) ∨
       (∃ ini e, (r.dropWhile isWordChar).head? = some ']' ∧
          splitLast (r.takeWhile isWordChar) = some (ini, e) ∧
          m2 = m ++ ini ∧ rest = e :: r.dropWhile isWordChar)) := by
  by_cases hb : lookbehindOk prev = true
  · rw [tryMatch, if_pos hb] at h
    refine ⟨hb, ?_⟩
    cases hst : stripCI w s with
    | none => rw [hst] at h; exact Option.noConfusion h
    | some p =>
      obtain ⟨m, r⟩ := p
      rw [hst] at h
      dsimp only at h
      refine ⟨m, r, rfl, ?_⟩
      split at h
      · rename_i tail heq
        cases hsl : splitLast (r.takeWhile isWordChar) with
        | none => rw [hsl] at h; exact Option.noConfusion h
        | some q =>
          obtain ⟨ini, e⟩ := q
          rw [hsl] at h
          have h1 := Option.some.inj h
          have hm2 : m2 = m ++ ini := (congrArg Prod.fst h1).symm
          have hrest : rest = e :: r.dropWhile isWordChar :=
            (congrArg Prod.snd h1).symm
          right
          exact ⟨ini, e, by rw [heq]; rfl, rfl, hm2, hrest⟩
      · rename_i hne2
        have h1 := Option.some.inj h
        have hm2 : m2 = m ++ r.takeWhile isWordChar := (congrArg Prod.fst h1).symm
        have hrest : rest = r.dropWhile isWordChar := (congrArg Prod.snd h1).symm
        left
        refine ⟨?_, hm2, hrest⟩
        intro hc
        cases hdw2 : r.dropWhile isWordChar with
        | nil => rw [hdw2] at hc; exact Option.noConfusion hc
        | cons d t =>
          rw [hdw2] at hc
          have hdj : d = ']' := Option.some.inj hc
          subst hdj
          exact hne2 t hdw2
  · rw [tryMatch_none_of_lookbehind w prev s (Bool.not_eq_true _ ▸ hb)] at h
    exact Option.noConfusion h

theorem tryMatch_some_append (w : List Char) (prev : Option Char) (s m2 rest : List Char)
    (h : tryMatch w prev s = some (m2, rest)) : m2 ++ rest = s := by
  obtain ⟨hb, m, r, hst, hcase⟩ := tryMatch_some_spec w prev s m2 rest h
  obtain ⟨hmr, hlc⟩ := stripCI_some_spec w s m r hst
  have htd : r.takeWhile isWordChar ++ r.dropWhile isWordChar = r :=
    List.takeWhile_append_dropWhile isWordChar r
  rcases hcase with ⟨_, hm2, hrest⟩ | ⟨ini, e, _, hsl, hm2, hrest⟩
  · rw [hm2, hrest, List.append_assoc, htd, hmr]
  · have hie := splitLast_spec _ _ _ hsl
    rw [hm2, hrest]
    have : (m ++ ini) ++ (e :: r.dropWhile isWordChar) =
        m ++ ((ini ++ [e]) ++ r.dropWhile isWordChar) := by simp
    rw [this, hie, htd, hmr]

theorem lcList_nil_iff (w : List Char) : lcList w = [] ↔ w = [] := by
  cases w with
  | nil => simp [lcList]
  | cons a ws => simp [lcList]

theorem tryMatch_some_ne_nil (w : List Char) (hw : w ≠ []) (prev : Option Char)
    (s m2 rest : List Char) (h : tryMatch w prev s = some (m2, rest)) : m2 ≠ [] := by
  obtain ⟨hb, m, r, hst, hcase⟩ := tryMatch_some_spec w prev s m2 rest h
  obtain ⟨hmr, hlc⟩ := stripCI_some_spec w s m r hst
  have hm : m ≠ [] := by
    intro hnil
    have hwnil : lcList w = [] := by rw [← hlc, hnil]; rfl
    exact hw ((lcList_nil_iff w).mp hwnil)
  rcases hcase with ⟨_, hm2, _⟩ | ⟨ini, e, _, _, hm2, _⟩ <;>
    · rw [hm2]
      intro hc
      exact hm (List.append_eq_nil.mp hc).1

theorem tryMatch_some_wordchar (w : List Char) (hwc : ∀ c ∈ w, isWordChar c = true)
    (prev : Option Char) (s m2 rest : List Char)
    (h : tryMatch w prev s = some (m2, rest)) : ∀ c ∈ m2, isWordChar c = true := by
  obtain ⟨hb, m, r, hst, hcase⟩ := tryMatch_some_spec w prev s m2 rest h
  have hmw : ∀ c ∈ m, isWordChar c = true := stripCI_wordchar w s m r hst hwc
  have htw : ∀ c ∈ r.takeWhile isWordChar, isWordChar c = true :=
    fun c hc => List.mem_takeWhile_imp hc
  rcases hcase with ⟨_, hm2, _⟩ | ⟨ini, e, _, hsl, hm2, _⟩
  · rw [hm2]
    intro c hc
    rcases List.mem_append.mp hc with hc | hc
    · exact hmw c hc
    · exact htw c hc
  · have hie := splitLast_spec _ _ _ hsl
    rw [hm2]
    intro c hc
    rcases List.mem_append.mp hc with hc | hc
    · exact hmw c hc
    · exact htw c (by rw [← hie]; exact List.mem_append_left _ hc)

theorem tryMatch_resume_none (w : List Char) (hw : w ≠ [])
    (hwc : ∀ c ∈ w, isWordChar c = true) (prev : Option Char) (s m2 rest : List Char)
    (h : tryMatch w prev s = some (m2, rest)) : ∀ q, tryMatch w q rest = none := by
  intro q
  obtain ⟨hb, m, r, hst, hcase⟩ := tryMatch_some_spec w prev s m2 rest h
  rcases hcase with ⟨hne, hm2, hrest⟩ | ⟨ini, e, hhead, hsl, hm2, hrest⟩
  · apply tryMatch_none_of_strip
    cases hdw : r.dropWhile isWordChar with
    | nil =>
      rw [hrest, hdw]
      cases w with
      | nil => exact absurd rfl hw
      | cons a ws => rfl
    | cons d t =>
      have hd : isWordChar d = false := dropWhile_head_false _ r d (by rw [hdw]; rfl)
      rw [hrest, hdw]
      cases w with
      | nil => exact absurd rfl hw
      | cons a ws =>
        rw [stripCI, if_neg ?hne2]
        case hne2 =>
          intro hlceq
          have hiw := isWordChar_of_lcChar_eq hlceq
          rw [hwc a (by simp), hd] at hiw
          exact Bool.noConfusion hiw
  · cases hdw : r.dropWhile isWordChar with
    | nil => rw [hdw] at hhead; exact Option.noConfusion hhead
    | cons d t =>
      rw [hdw] at hhead
      have hd : d = ']' := Option.some.inj hhead
      subst hd
      rw [hrest, hdw]
      by_cases hbq : lookbehindOk q = true
      · rw [tryMatch, if_pos hbq]
        have hket : isWordChar ']' = false := by decide
        have htk : List.takeWhile isWordChar (']' :: t) = [] :=
          List.takeWhile_cons_of_neg (by rw [hket]; exact Bool.false_ne_true)
        have hdk : List.dropWhile isWordChar (']' :: t) = ']' :: t :=
          List.dropWhile_cons_of_neg (by rw [hket]; exact Bool.false_ne_true)
        cases w with
        | nil => exact absurd rfl hw
        | cons a ws =>
          cases ws with
          | nil =>
            by_cases hlc : lcChar e = lcChar a
            · rw [stripCI, if_pos hlc]
              have hs0 : stripCI [] (']' :: t) = some ([], ']' :: t) := rfl
              rw [hs0]
              dsimp only [Option.map_some']
              rw [htk, hdk]
              rfl
            · rw [stripCI, if_neg hlc]
          | cons b ws2 =>
            by_cases hlc : lcChar e = lcChar a
            · rw [stripCI, if_pos hlc]
              have hsb : stripCI (b :: ws2) (']' :: t) = none := by
                rw [stripCI, if_neg ?hb2]
                case hb2 =>
                  intro hlceq
                  have hiw := isWordChar_of_lcChar_eq hlceq
                  rw [hwc b (by simp)] at hiw
                  exact Bool.noConfusion (hiw.symm.trans (by decide : isWordChar ']' = false))
              rw [hsb]
              rfl
            · rw [stripCI, if_neg hlc]
      · exact tryMatch_none_of_lookbehind w q _ (by
          rw [Bool.not_eq_true] at hbq
          exact hbq)

theorem tryMatch_head_nonword (w : List Char) (hw : w ≠ [])
    (hwc : ∀ c ∈ w, isWordChar c = true) (q : Option Char) (c : Char) (X : List Char)
    (hc : isWordChar c = false) : tryMatch w q (c :: X) = none := by
  apply tryMatch_none_of_strip
  cases w with
  | nil => exact absurd rfl hw
  | cons a ws =>
    rw [stripCI, if_neg ?hlcne]
    case hlcne =>
      intro hlceq
      have hiw := isWordChar_of_lcChar_eq hlceq
      rw [hwc a (by simp), hc] at hiw
      exact Bool.noConfusion hiw

theorem subScanF_fuel_irrel (w : List Char) :
    ∀ (f1 f2 : Nat) (prev : Option Char) (s : List Char),
      s.length < f1 → s.length < f2 →
      subScanF w f1 prev s = subScanF w f2 prev s := by
  intro f1
  induction f1 with
  | zero => intro f2 prev s h1 _; exact absurd h1 (Nat.not_lt_zero _)
  | succ f1 ih =>
    intro f2 prev s h1 h2
    cases f2 with
    | zero => exact absurd h2 (Nat.not_lt_zero _)
    | succ f2 =>
      cases s with
      | nil => rfl
      | cons c cs =>
        rw [subScanF, subScanF]
        cases htm : tryMatch w prev (c :: cs) with
        | none =>
          have hcs : cs.length < f1 ∧ cs.length < f2 := by
            simp only [List.length_cons] at h1 h2
            omega
          rw [ih f2 (some c) cs hcs.1 hcs.2]
        | some p =>
          obtain ⟨m2, rest⟩ := p
          cases m2 with
          | nil =>
            have hcs : cs.length < f1 ∧ cs.length < f2 := by
              simp only [List.length_cons] at h1 h2
              omega
            rw [ih f2 (some c) cs hcs.1 hcs.2]
          | cons e m3 =>
            have happ := tryMatch_some_append w prev _ _ _ htm
            have hlen := congrArg List.length happ
            simp only [List.length_append, List.length_cons] at hlen h1 h2
            have hr : rest.length < f1 ∧ rest.length < f2 := by omega
            dsimp only
            rw [ih f2 (some ((e :: m3).getLastD e)) rest hr.1 hr.2]

theorem subScan_nil_of_ne (w : List Char) (hw : w ≠ []) (pr : Option Char) :
    subScan w pr [] = [] := by
  rw [subScan]
  show subScanF w 1 pr [] = []
  rw [subScanF]
  rw [tryMatch_none_of_strip w pr [] (by
    cases w with
    | nil => exact absurd rfl hw
    | cons a ws => rfl)]

theorem subScan_copy (w : List Char) (prev : Option Char) (c : Char) (cs : List Char)
    (h : tryMatch w prev (c :: cs) = none) :
    subScan w prev (c :: cs) = c :: subScan w (some c) cs := by
  simp only [subScan, List.length_cons]
  rw [subScanF, h]

theorem subScan_match (w : List Char) (prev : Option Char) (c : Char)
    (cs : List Char) (e : Char) (m3 rest : List Char)
    (h : tryMatch w prev (c :: cs) = some (e :: m3, rest)) :
    subScan w prev (c :: cs) =
      '[' :: (e :: m3) ++ ']' :: subScan w (some ((e :: m3).getLastD e)) rest := by
  have happ := tryMatch_some_append w prev _ _ _ h
  have hlen := congrArg List.length happ
  simp only [List.length_append, List.length_cons] at hlen
  simp only [subScan, List.length_cons]
  rw [subScanF, h]
  dsimp only
  rw [subScanF_fuel_irrel w (cs.length + 1) (rest.length + 1)
    (some ((e :: m3).getLastD e)) rest (by omega) (by omega)]

theorem subScan_wordrun (w : List Char) :
    ∀ (s : List Char) (d : Char), isWordChar d = true →
      subScan w (some d) s = s.takeWhile isWordChar ++ restScan w s := by
  intro s
  induction s with
  | nil =>
    intro d hd
    rw [subScan]
    show subScanF w 1 (some d) [] = _
    rw [subScanF]
    rw [tryMatch_none_of_lookbehind w (some d) [] (by simp [lookbehindOk, hd])]
    rfl
  | cons e es ih =>
    intro d hd
    have hlb : lookbehindOk (some d) = false := by simp [lookbehindOk, hd]
    rw [subScan_copy w _ e es (tryMatch_none_of_lookbehind w _ _ hlb)]
    by_cases he : isWordChar e = true
    · rw [ih e he]
      have hrs : restScan w (e :: es) = restScan w es := by
        rw [restScan, restScan, List.dropWhile_cons_of_pos he]
      rw [List.takeWhile_cons_of_pos he, hrs, List.cons_append]
    · have he2 : isWordChar e = false := by
        rw [Bool.not_eq_true] at he
        exact he
      have hne : ¬ isWordChar e = true := by rw [he2]; exact Bool.false_ne_true
      rw [List.takeWhile_cons_of_neg hne]
      rw [restScan, List.dropWhile_cons_of_neg hne]
      rfl

theorem subScan_deadrun (w : List Char) :
    ∀ (xs : List Char) (prev0 : Option Char) (T : List Char),
      lookbehindOk prev0 = false → (∀ x ∈ xs, isWordChar x = true) →
      subScan w prev0 (xs ++ ']' :: T) = xs ++ ']' :: subScan w (some ']') T := by
  intro xs
  induction xs with
  | nil =>
    intro prev0 T h0 _
    rw [List.nil_append,
      subScan_copy w prev0 ']' T (tryMatch_none_of_lookbehind w _ _ h0), List.nil_append]
  | cons x xs2 ih =>
    intro prev0 T h0 hall
    rw [List.cons_append,
      subScan_copy w prev0 x _ (tryMatch_none_of_lookbehind w _ _ h0)]
    have hx : lookbehindOk (some x) = false := by simp [lookbehindOk, hall x (by simp)]
    rw [ih (some x) T hx (fun y hy => hall y (by simp [hy])), List.cons_append]

theorem dropWhile_eq_self_of_takeWhile_nil (p : Char → Bool) (l : List Char)
    (h : l.takeWhile p = []) : l.dropWhile p = l := by
  cases l with
  | nil => rfl
  | cons c t =>
    by_cases hc : p c = true
    · rw [List.takeWhile_cons_of_pos hc] at h
      exact List.noConfusion h
    · exact List.dropWhile_cons_of_neg hc

theorem tryMatch_none_strip_some_spec (w : List Char) (q : Option Char)
    (s m r : List Char) (h : tryMatch w q s = none) (hb : lookbehindOk q = true)
    (hst : stripCI w s = some (m, r)) :
    (r.dropWhile isWordChar).head? = some ']' ∧ r.takeWhile isWordChar = [] := by
  rw [tryMatch, if_pos hb, hst] at h
  dsimp only at h
  split at h
  · rename_i tail heq
    cases hsl : splitLast (r.takeWhile isWordChar) with
    | none =>
      exact ⟨by rw [heq]; rfl, (splitLast_none_iff _).mp hsl⟩
    | some q2 =>
      obtain ⟨ini, e⟩ := q2
      rw [hsl] at h
      exact Option.noConfusion h
  · exact Option.noConfusion h

theorem tryMatch_block_none (w : List Char) (hw : w ≠ [])
    (hwc : ∀ c ∈ w, isWordChar c = true) (q : Option Char) (A t1 t2 : List Char)
    (hA : ∀ x ∈ A, isWordChar x = true)
    (hhead : t1.head? = t2.head?)
    (hnw : ∀ h, t1.head? = some h → isWordChar h = false)
    (h : tryMatch w q (A ++ t1) = none) : tryMatch w q (A ++ t2) = none := by
  by_cases hb : lookbehindOk q = true
  · cases hst : stripCI w (A ++ t1) with
    | none =>
      apply tryMatch_none_of_strip
      rw [stripCI_none_iff] at hst
      rw [stripCI_none_iff]
      intro m r hdecomp hlc
      have hmw := wordchar_of_lcList_eq m w hlc hwc
      rcases List.append_eq_append_iff.mp hdecomp.symm with ⟨a2, ha1, ha2⟩ | ⟨c2, hc1, hc2⟩
      · exact hst m (a2 ++ t1) (by rw [ha1, List.append_assoc]) hlc
      · cases c2 with
        | nil =>
          rw [List.append_nil] at hc1
          exact hst m t1 (by rw [← hc1]) hlc
        | cons h2 c3 =>
          have hh : t2.head? = some h2 := by rw [hc2]; rfl
          have hw2 : isWordChar h2 = true :=
            hmw h2 (by rw [hc1]; exact List.mem_append_right A (by simp))
          have := hnw h2 (hhead.trans hh)
          rw [hw2] at this
          exact Bool.noConfusion this
    | some p =>
      obtain ⟨m, r⟩ := p
      obtain ⟨hhd, htw⟩ := tryMatch_none_strip_some_spec w q _ m r h hb hst
      have hdw : r.dropWhile isWordChar = r := dropWhile_eq_self_of_takeWhile_nil _ _ htw
      rw [hdw] at hhd
      obtain ⟨hmr, hlc⟩ := stripCI_some_spec w _ m r hst
      have hmw := wordchar_of_lcList_eq m w hlc hwc
      obtain ⟨tail, htail⟩ : ∃ tail, r = ']' :: tail := by
        cases r with
        | nil => exact Option.noConfusion hhd
        | cons d t =>
          have : d = ']' := Option.some.inj hhd
          subst this
          exact ⟨t, rfl⟩
      have hmA : m = A ∧ t1 = r := by
        rcases List.append_eq_append_iff.mp hmr with ⟨a2, ha1, ha2⟩ | ⟨c2, hc1, hc2⟩
        · cases a2 with
          | nil =>
            rw [List.append_nil] at ha1
            rw [List.nil_append] at ha2
            exact ⟨ha1.symm, ha2.symm⟩
          | cons h2 a3 =>
            have hh : h2 = ']' := by
              have hhd2 := congrArg List.head? ha2
              rw [htail] at hhd2
              exact (Option.some.inj hhd2).symm
            have hw2 : isWordChar h2 = true :=
              hA h2 (by rw [ha1]; exact List.mem_append_right m (by simp))
            rw [hh] at hw2
            exact absurd hw2 (by decide)
        · cases c2 with
          | nil =>
            rw [List.append_nil] at hc1
            rw [List.nil_append] at hc2
            exact ⟨hc1, hc2⟩
          | cons h2 c3 =>
            have hh : t1.head? = some h2 := by rw [hc2]; rfl
            have hw2 : isWordChar h2 = true :=
              hmw h2 (by rw [hc1]; exact List.mem_append_right A (by simp))
            have := hnw h2 hh
            rw [hw2] at this
            exact Bool.noConfusion this
      obtain ⟨hmA, ht1r⟩ := hmA
      have ht2 : ∃ t2', t2 = ']' :: t2' := by
        have : t2.head? = some ']' := by
          rw [← hhead, ht1r, htail]
          rfl
        cases t2 with
        | nil => exact Option.noConfusion this
        | cons d t =>
          have hd : d = ']' := Option.some.inj this
          subst hd
          exact ⟨t, rfl⟩
      obtain ⟨t2', ht2⟩ := ht2
      rw [tryMatch, if_pos hb]
      have hst2 : stripCI w (A ++ t2) = some (m, t2) := by
        rw [← hmA]
        exact stripCI_of w m t2 hlc
      rw [hst2]
      dsimp only
      have hket : ¬ isWordChar ']' = true := by decide
      have htk2 : List.takeWhile isWordChar t2 = [] := by
        rw [ht2]
        exact List.takeWhile_cons_of_neg hket
      have hdk2 : List.dropWhile isWordChar t2 = ']' :: t2' := by
        rw [ht2]
        exact List.dropWhile_cons_of_neg hket
      rw [htk2, hdk2]
      rfl
  · exact tryMatch_none_of_lookbehind w q _ (by
      rw [Bool.not_eq_true] at hb
      exact hb)

theorem restScan_head (w : List Char) (cs : List Char) :
    (restScan w cs).head? = (cs.dropWhile isWordChar).head? := by
  rw [restScan]
  cases hdw : cs.dropWhile isWordChar with
  | nil => rfl
  | cons h t => rfl

theorem tryMatch_copy_preserved (w : List Char) (hw : w ≠ [])
    (hwc : ∀ c ∈ w, isWordChar c = true) (q : Option Char) (c : Char) (cs : List Char)
    (h : tryMatch w q (c :: cs) = none) :
    tryMatch w q (c :: subScan w (some c) cs) = none := by
  by_cases hc : isWordChar c = true
  · have hscan : subScan w (some c) cs = cs.takeWhile isWordChar ++ restScan w cs :=
      subScan_wordrun w cs c hc
    have hgoal : c :: subScan w (some c) cs =
        (c :: cs.takeWhile isWordChar) ++ restScan w cs := by
      rw [hscan, List.cons_append]
    rw [hgoal]
    apply tryMatch_block_none w hw hwc q (c :: cs.takeWhile isWordChar)
      (cs.dropWhile isWordChar) (restScan w cs)
    · intro x hx
      rcases List.mem_cons.mp hx with hx | hx
      · rw [hx]; exact hc
      · exact List.mem_takeWhile_imp hx
    · exact (restScan_head w cs).symm
    · exact fun d hd => dropWhile_head_false _ cs d hd
    · rw [List.cons_append, List.takeWhile_append_dropWhile]
      exact h
  · have hc2 : isWordChar c = false := by
      rw [Bool.not_eq_true] at hc
      exact hc
    exact tryMatch_head_nonword w hw hwc q c _ hc2

theorem subScan_idem_aux (w : List Char) (hw : w ≠ [])
    (hwc : ∀ c ∈ w, isWordChar c = true) :
    ∀ (n : Nat) (s : List Char), s.length ≤ n → ∀ (prev q : Option Char),
      (q = prev ∨ ∀ p2, tryMatch w p2 s = none) →
      subScan w q (subScan w prev s) = subScan w prev s := by
  intro n
  induction n with
  | zero =>
    intro s hs prev q _
    rw [List.length_eq_zero.mp (Nat.le_zero.mp hs)]
    rw [subScan_nil_of_ne w hw prev, subScan_nil_of_ne w hw q]
  | succ n ih =>
    intro s hs prev q hq
    cases s with
    | nil => rw [subScan_nil_of_ne w hw prev, subScan_nil_of_ne w hw q]
    | cons c cs =>
      cases htm : tryMatch w prev (c :: cs) with
      | none =>
        rw [subScan_copy w prev c cs htm]
        have hq2 : tryMatch w q (c :: cs) = none := by
          rcases hq with rfl | hall
          · exact htm
          · exact hall q
        rw [subScan_copy w q c _ (tryMatch_copy_preserved w hw hwc q c cs hq2)]
        have hcs : cs.length ≤ n := by
          simp only [List.length_cons] at hs
          omega
        rw [ih cs hcs (some c) (some c) (Or.inl rfl)]
      | some p =>
        obtain ⟨m2, rest⟩ := p
        have hne := tryMatch_some_ne_nil w hw prev _ m2 rest htm
        cases m2 with
        | nil => exact absurd rfl hne
        | cons e m3 =>
          rw [subScan_match w prev c cs e m3 rest htm]
          have hxw : ∀ x ∈ (e :: m3), isWordChar x = true :=
            tryMatch_some_wordchar w hwc prev _ _ _ htm
          have hsh : ('[' :: e :: m3) ++
              (']' :: subScan w (some ((e :: m3).getLastD e)) rest) =
              '[' :: ((e :: m3) ++
                (']' :: subScan w (some ((e :: m3).getLastD e)) rest)) := by
            simp
          rw [hsh]
          rw [subScan_copy w q '[' _
            (tryMatch_head_nonword w hw hwc q '[' _ (by decide))]
          rw [subScan_deadrun w (e :: m3) (some '[') _ (by decide) hxw]
          have hres := tryMatch_resume_none w hw hwc prev _ _ _ htm
          have hrlen : rest.length ≤ n := by
            have happ := tryMatch_some_append w prev _ _ _ htm
            have hlen := congrArg List.length happ
            simp only [List.length_append, List.length_cons] at hlen hs
            omega
          rw [ih rest hrlen (some ((e :: m3).getLastD e)) (some ']') (Or.inr hres)]

/-- C8 counterexamples: the gen_phrases.py bracketing (which lacks the
word-boundary lookbehind and the closing-bracket lookahead) is not
idempotent even on plain words; and the gen_wordlist.py bracketing is not
idempotent for a word that is not made of word characters. -/
theorem bracketing_not_idempotent_in_general :
    bracket_phrases (ofStr "a") (ofStr "aa") = ofStr "[aa]" ∧
    bracket_phrases (ofStr "a") (bracket_phrases (ofStr "a") (ofStr "aa")) =
      ofStr "[a[a]]" ∧
    ofStr "[a[a]]" ≠ ofStr "[aa]" ∧
    auto_bracket (ofStr "]") (auto_bracket (ofStr "]") (ofStr "]")) ≠
      auto_bracket (ofStr "]") (ofStr "]") := by
  refine ⟨by decide, by decide, by decide, by decide⟩

/-- C8 (amended): the gen_wordlist.py pattern bracketing is idempotent for
every nonempty word consisting of word characters (the domain the script
uses: words are lowercased catalog headwords): re-running auto_bracket on
its own output returns that output unchanged, for every phrase. The
gen_phrases.py variant is not idempotent (see the counterexample). -/
theorem auto_bracket_idempotent (w p : List Char) (hw : w ≠ [])
    (hwc : ∀ c ∈ w, isWordChar c = true) :
    auto_bracket w (auto_bracket w p) = auto_bracket w p :=
  subScan_idem_aux w hw hwc p.length p (Nat.le_refl _) none none (Or.inl rfl)

/-- Witness for C8 at a concrete input: bracketing the scenario phrase for
the word hund once and twice gives the same result. -/
theorem auto_bracket_idempotent_witness :
    (ofStr "hund" ≠ [] ∧ ∀ c ∈ ofStr "hund", isWordChar c = true) ∧
    auto_bracket (ofStr "hund") (auto_bracket (ofStr "hund") (ofStr "Hunden skäller.")) =
      auto_bracket (ofStr "hund") (ofStr "Hunden skäller.") :=
  ⟨⟨by decide, by decide⟩,
    auto_bracket_idempotent (ofStr "hund") (ofStr "Hunden skäller.")
      (by decide) (by decide)⟩

theorem boundaryOk_iff (prev : Option Char) :
    BoundaryOk prev ↔ lookbehindOk prev = true := by
  cases prev with
  | none =>
    constructor
    · intro _; rfl
    · intro _ d hd; exact Option.noConfusion hd
  | some d =>
    constructor
    · intro hB
      obtain ⟨h1, h2⟩ := hB d rfl
      simp [lookbehindOk, h1, h2]
    · intro hL d2 hd2
      have hdd : d = d2 := Option.some.inj hd2
      subst hdd
      simp [lookbehindOk] at hL
      exact hL

theorem noMatchAt_of_tryMatch_none (w : List Char) (prev : Option Char) (s : List Char)
    (h : tryMatch w prev s = none) : NoMatchAt w prev s := by
  by_cases hb : lookbehindOk prev = true
  · cases hst : stripCI w s with
    | none =>
      right; left
      intro a r hs hci
      rw [stripCI_none_iff] at hst
      exact hst a r hs hci
    | some p =>
      obtain ⟨m, r⟩ := p
      obtain ⟨hhd, htw⟩ := tryMatch_none_strip_some_spec w prev s m r h hb hst
      have hdw : r.dropWhile isWordChar = r := dropWhile_eq_self_of_takeWhile_nil _ _ htw
      rw [hdw] at hhd
      obtain ⟨hmr, hlc⟩ := stripCI_some_spec _ _ _ _ hst
      right; right
      have hgs : GreedySplit s m [] r w := by
        show s = m ++ [] ++ r ∧ CIMatch w m ∧
          (∀ c ∈ ([] : List Char), isWordChar c = true) ∧
          (∀ d, r.head? = some d → isWordChar d = false)
        have h3 : ∀ c ∈ ([] : List Char), isWordChar c = true := by
          intro c hc
          cases hc
        have h4 : ∀ d, r.head? = some d → isWordChar d = false := by
          intro d hd
          rw [hhd] at hd
          have hd2 : d = ']' := (Option.some.inj hd).symm
          subst hd2
          decide
        exact ⟨by rw [← hmr]; simp, hlc, h3, h4⟩
      exact ⟨m, r, hgs, by rw [hhd]⟩
  · left
    intro hB
    exact hb ((boundaryOk_iff prev).mp hB)

theorem brack_of_subScan (w : List Char) (hw : w ≠ []) :
    ∀ (n : Nat) (s : List Char), s.length ≤ n → ∀ (prev : Option Char),
      Brack w prev s (subScan w prev s) := by
  intro n
  induction n with
  | zero =>
    intro s hs prev
    rw [List.length_eq_zero.mp (Nat.le_zero.mp hs)]
    rw [subScan_nil_of_ne w hw prev]
    exact Brack.nil prev
  | succ n ih =>
    intro s hs prev
    cases s with
    | nil =>
      rw [subScan_nil_of_ne w hw prev]
      exact Brack.nil prev
    | cons c cs =>
      cases htm : tryMatch w prev (c :: cs) with
      | none =>
        rw [subScan_copy w prev c cs htm]
        exact Brack.copy prev c cs _ (noMatchAt_of_tryMatch_none w prev _ htm)
          (ih cs (by simp only [List.length_cons] at hs; omega) (some c))
      | some p =>
        obtain ⟨m2, rest⟩ := p
        have hne := tryMatch_some_ne_nil w hw prev _ m2 rest htm
        cases m2 with
        | nil => exact absurd rfl hne
        | cons e m3 =>
          rw [subScan_match w prev c cs e m3 rest htm]
          have hrlen : rest.length ≤ n := by
            have happ := tryMatch_some_append w prev _ _ _ htm
            have hlen := congrArg List.length happ
            simp only [List.length_append, List.length_cons] at hlen hs
            omega
          obtain ⟨hb, m, r, hst, hcase⟩ := tryMatch_some_spec w prev _ _ _ htm
          obtain ⟨hmr, hlc⟩ := stripCI_some_spec _ _ _ _ hst
          have hBnd : BoundaryOk prev := (boundaryOk_iff prev).mpr hb
          have htd : r.takeWhile isWordChar ++ r.dropWhile isWordChar = r :=
            List.takeWhile_append_dropWhile isWordChar r
          rcases hcase with ⟨hnk, hm2, hrest⟩ | ⟨ini, e2, hhd, hsl, hm2, hrest⟩
          · rw [hm2]
            have hgl : (m ++ r.takeWhile isWordChar).getLastD e =
                (m ++ r.takeWhile isWordChar).getLastD c := by
              apply getLastD_irrel
              rw [← hm2]
              exact List.cons_ne_nil e m3
            rw [hgl]
            refine Brack.wrap prev c cs m (r.takeWhile isWordChar) rest _ hBnd
              ⟨?_, hlc, ?_, ?_⟩ ?_ (ih rest hrlen _)
            · rw [hrest, List.append_assoc, htd, hmr]
            · intro x hx
              exact List.mem_takeWhile_imp hx
            · intro d hd
              rw [hrest] at hd
              exact dropWhile_head_false isWordChar r d hd
            · rw [hrest]
              exact hnk
          · rw [hm2]
            have hie := splitLast_spec _ _ _ hsl
            have hgl : (m ++ ini).getLastD e = (m ++ ini).getLastD c := by
              apply getLastD_irrel
              rw [← hm2]
              exact List.cons_ne_nil e m3
            rw [hgl]
            rw [hrest]
            refine Brack.wrapShort prev c cs m ini (r.dropWhile isWordChar) _ e2 hBnd
              ⟨?_, hlc, ?_, ?_⟩ hhd ?_
            · rw [hie, List.append_assoc, htd, hmr]
            · intro x hx
              rw [hie] at hx
              exact List.mem_takeWhile_imp hx
            · intro d hd
              exact dropWhile_head_false isWordChar r d hd
            · rw [← hrest]
              exact ih rest hrlen _

/-- C6 counterexample: a candidate-word occurrence whose greedy extension
is immediately followed by a closing bracket is not skipped — the engine
backtracks one character and brackets the shorter match; and the
gen_phrases.py variant (also cited by the claim) brackets occurrences of
the word appearing mid-word, having no word-boundary lookbehind. -/
theorem bracketing_boundary_counterexample :
    auto_bracket (ofStr "hund") (ofStr "hunden]") = ofStr "[hunde]n]" ∧
    ofStr "[hunde]n]" ≠ ofStr "hunden]" ∧
    bracket_phrases (ofStr "und") (ofStr "hunden") = ofStr "h[unden]" ∧
    ofStr "h[unden]" ≠ ofStr "hunden" :=
  ⟨by decide, by decide, by decide, by decide⟩

/-- C6 (amended): for every nonempty word, auto_bracket wraps in square
brackets exactly the case-insensitive occurrences of the word that begin
at a word boundary (not preceded by a word character, and not preceded by
an opening bracket), each extended greedily by trailing word characters; a
match whose extension is immediately followed by a closing bracket gives
up its final extension character (which is left unbracketed) rather than
being skipped, and the position is skipped entirely only when the
occurrence has no extension character to give up; mid-word occurrences are
never bracketed. The Brack relation transcribes this wording and the scan
realises it. (The gen_phrases.py variant checks only the opening-bracket
lookbehind; see the counterexample.) -/
theorem auto_bracket_spec (w p : List Char) (hw : w ≠ []) :
    Brack w none p (auto_bracket w p) :=
  brack_of_subScan w hw p.length p (Nat.le_refl _) none

/-- Witness for C6 at a concrete input. -/
theorem auto_bracket_spec_witness :
    (ofStr "hund" ≠ []) ∧
    Brack (ofStr "hund") none (ofStr "Hunden skäller.")
      (auto_bracket (ofStr "hund") (ofStr "Hunden skäller.")) :=
  ⟨by decide, auto_bracket_spec (ofStr "hund") (ofStr "Hunden skäller.") (by decide)⟩

end Signflash
